import Mathlib

/-!
# Result Processing System: `app/static/js/main.js`

A shallow embedding of the pure helpers and event handlers of `main.js`,
followed by the properties proved about them.

JavaScript numbers are modelled by `JSNum`: a finite value is the exact rational
it denotes, arithmetic rounds every result to the nearest binary64 value (ties to
even), and `NaN` and the two infinities are explicit.  The two zeros are
identified; none of the operations embedded here can tell them apart (the only
division is by a divisor that compared greater than zero).
-/

namespace ResultProcessing

/-! ## JavaScript numbers -/

/-- A JavaScript Number. -/
inductive JSNum where
  | nan
  | posInf
  | negInf
  | fin (q : ℚ)
  deriving DecidableEq

instance (n : Nat) : OfNat JSNum n := ⟨JSNum.fin (n : ℚ)⟩

/-- The power `2 ^ z` for an integer exponent. -/
def pow2 (z : Int) : ℚ :=
  if 0 ≤ z then ((2 ^ z.toNat : Nat) : ℚ) else 1 / ((2 ^ (-z).toNat : Nat) : ℚ)

/-- Nearest integer, a tie going to the even neighbour. -/
def roundHalfEven (q : ℚ) : Int :=
  let f := Rat.floor q
  let r := q - f
  if r < 1 / 2 then f else if 1 / 2 < r then f + 1 else if f % 2 = 0 then f else f + 1

/-- The loop of the binary logarithm: halve `n` until it is below two, at most
`fuel` times. -/
def log2Loop : Nat → Nat → Nat
  | 0, _ => 0
  | fuel + 1, n => if 2 ≤ n then log2Loop fuel (n / 2) + 1 else 0

/-- The binary logarithm of a natural number, rounded down (and zero at zero). -/
def ilog2 (n : Nat) : Nat := log2Loop n n

/-- The binary exponent `e` of a positive rational: `2 ^ e ≤ q < 2 ^ (e + 1)`. -/
def binExp (q : ℚ) : Int :=
  let e0 : Int := (ilog2 q.num.natAbs : Int) - (ilog2 q.den : Int)
  if q < pow2 e0 then e0 - 1 else e0

/-- Round a positive rational to binary64 (53-bit significand, exponents from
`-1022`, subnormals below); `none` stands for overflow. -/
def roundPos (q : ℚ) : Option ℚ :=
  let e := max (binExp q) (-1022)
  let ulp := pow2 (e - 52)
  let r := (roundHalfEven (q / ulp) : ℚ) * ulp
  if pow2 1024 ≤ r then none else some r

/-- Round an exact result to the Number it is stored as. -/
def roundToDouble (q : ℚ) : JSNum :=
  if q = 0 then JSNum.fin 0
  else if 0 < q then
    match roundPos q with
    | some r => JSNum.fin r
    | none => JSNum.posInf
  else
    match roundPos (-q) with
    | some r => JSNum.fin (-r)
    | none => JSNum.negInf

/-- A finite value is a Number when rounding leaves it unchanged. -/
def JSNum.isDouble : JSNum → Bool
  | JSNum.fin q => decide (roundToDouble q = JSNum.fin q)
  | _ => true

/-- The relational `a < b`; false as soon as one side is `NaN`. -/
def JSNum.lt : JSNum → JSNum → Bool
  | JSNum.nan, _ => false
  | _, JSNum.nan => false
  | JSNum.negInf, JSNum.negInf => false
  | JSNum.negInf, _ => true
  | JSNum.posInf, _ => false
  | JSNum.fin _, JSNum.negInf => false
  | JSNum.fin _, JSNum.posInf => true
  | JSNum.fin a, JSNum.fin b => decide (a < b)

/-- The relational `a > b`. -/
def JSNum.gt (a b : JSNum) : Bool := JSNum.lt b a

/-- The relational `a >= b`: neither side `NaN` and not `a < b`. -/
def JSNum.ge : JSNum → JSNum → Bool
  | JSNum.nan, _ => false
  | _, JSNum.nan => false
  | a, b => !(JSNum.lt a b)

/-- The sum `a + b` of two Numbers. -/
def JSNum.add : JSNum → JSNum → JSNum
  | JSNum.nan, _ => JSNum.nan
  | _, JSNum.nan => JSNum.nan
  | JSNum.posInf, JSNum.negInf => JSNum.nan
  | JSNum.negInf, JSNum.posInf => JSNum.nan
  | JSNum.posInf, _ => JSNum.posInf
  | JSNum.negInf, _ => JSNum.negInf
  | _, JSNum.posInf => JSNum.posInf
  | _, JSNum.negInf => JSNum.negInf
  | JSNum.fin a, JSNum.fin b => roundToDouble (a + b)

/-- An infinity of the sign of `q`, or `NaN` for zero: the product of an
infinity with the finite value `q`. -/
def infTimes (positive : Bool) (q : ℚ) : JSNum :=
  if q = 0 then JSNum.nan
  else if (decide (0 < q)) = positive then JSNum.posInf else JSNum.negInf

/-- The product `a * b` of two Numbers. -/
def JSNum.mul : JSNum → JSNum → JSNum
  | JSNum.nan, _ => JSNum.nan
  | _, JSNum.nan => JSNum.nan
  | JSNum.posInf, JSNum.posInf => JSNum.posInf
  | JSNum.posInf, JSNum.negInf => JSNum.negInf
  | JSNum.negInf, JSNum.posInf => JSNum.negInf
  | JSNum.negInf, JSNum.negInf => JSNum.posInf
  | JSNum.posInf, JSNum.fin b => infTimes true b
  | JSNum.negInf, JSNum.fin b => infTimes false b
  | JSNum.fin a, JSNum.posInf => infTimes true a
  | JSNum.fin a, JSNum.negInf => infTimes false a
  | JSNum.fin a, JSNum.fin b => roundToDouble (a * b)

/-- The quotient `a / b` of two Numbers, a zero divisor being the positive zero. -/
def JSNum.div : JSNum → JSNum → JSNum
  | JSNum.nan, _ => JSNum.nan
  | _, JSNum.nan => JSNum.nan
  | JSNum.fin _, JSNum.posInf => JSNum.fin 0
  | JSNum.fin _, JSNum.negInf => JSNum.fin 0
  | JSNum.fin a, JSNum.fin b =>
      if b = 0 then
        (if a = 0 then JSNum.nan else if 0 < a then JSNum.posInf else JSNum.negInf)
      else roundToDouble (a / b)
  | JSNum.posInf, JSNum.fin b => if 0 ≤ b then JSNum.posInf else JSNum.negInf
  | JSNum.negInf, JSNum.fin b => if 0 ≤ b then JSNum.negInf else JSNum.posInf
  | _, _ => JSNum.nan

/-- Truthiness of a Number: every value but zero and `NaN`. -/
def JSNum.truthy : JSNum → Bool
  | JSNum.nan => false
  | JSNum.fin q => decide (q ≠ 0)
  | _ => true

/-! ## `calculateGrade` -/

/-- The record `calculateGrade` returns; `cls` is its `class` property. -/
structure GradeInfo where
  grade : String
  point : Nat
  cls : String
  deriving DecidableEq, Repr

/-- The function `calculateGrade(score)` for a numeric score. -/
def calculateGrade (score : JSNum) : GradeInfo :=
  if JSNum.ge score 70 then ⟨"A", 5, "bg-success"⟩
  else if JSNum.ge score 60 then ⟨"B", 4, "bg-success"⟩
  else if JSNum.ge score 50 then ⟨"C", 3, "bg-warning text-dark"⟩
  else if JSNum.ge score 45 then ⟨"D", 2, "bg-warning text-dark"⟩
  else if JSNum.ge score 40 then ⟨"E", 1, "bg-secondary"⟩
  else ⟨"F", 0, "bg-danger"⟩

/-- The grade letter and point of a score, the part of the record the bands fix. -/
def gradeOf (score : JSNum) : String × Nat :=
  ((calculateGrade score).grade, (calculateGrade score).point)


/-! ## `Number.prototype.toFixed(2)` -/

/-- The decimal digits of a natural number. -/
def decimalDigits (n : Nat) : List Char := Nat.toDigits 10 n

/-- The power `10 ^ z` for an integer exponent. -/
def pow10 (z : Int) : ℚ :=
  if 0 ≤ z then ((10 ^ z.toNat : Nat) : ℚ) else 1 / ((10 ^ (-z).toNat : Nat) : ℚ)

/-- The decimal exponent `n` of a positive rational: `10 ^ (n - 1) ≤ a < 10 ^ n`. -/
def decExp (a : ℚ) : Int :=
  if 1 ≤ a then ((decimalDigits (Rat.floor a).toNat).length : Int)
  else
    let d : Int := ((decimalDigits (Rat.floor (1 / a)).toNat).length : Int)
    if a < pow10 (1 - d) then 1 - d else 2 - d

/-- One candidate of the digit search of `Number::toString`: the `k`-digit
integer `s` nearest to `a / scale` among those with `s * scale` rounding to `a`,
the even one on a tie; `none` when neither neighbour rounds to `a`. -/
def digitCandidate (a scale : ℚ) : Option Nat :=
  let lo := (Rat.floor (a / scale)).toNat
  let hi := lo + 1
  let okLo := decide (roundToDouble ((lo : ℚ) * scale) = JSNum.fin a)
  let okHi := decide (roundToDouble ((hi : ℚ) * scale) = JSNum.fin a)
  if okLo && okHi then
    (if a - (lo : ℚ) * scale < (hi : ℚ) * scale - a then some lo
     else if (hi : ℚ) * scale - a < a - (lo : ℚ) * scale then some hi
     else if lo % 2 = 0 then some lo else some hi)
  else if okLo then some lo
  else if okHi then some hi
  else none

/-- The search for the shortest digit string: the first length `k` from `k`
upwards (at most `fuel` of them) that has a candidate, with the candidate; `n` is
the decimal exponent of `a`. -/
def shortestDigits (a : ℚ) (n : Int) : Nat → Nat → Option (Nat × Nat)
  | 0, _ => none
  | fuel + 1, k =>
    match digitCandidate a (pow10 (n - k)) with
    | some s => some (k, s)
    | none => shortestDigits a n fuel (k + 1)

/-- The integers `n` and `s` of `Number::toString`, `s` by its digits: the
shortest digit string `s` with `s * 10 ^ (n - k)` reading back as the Number `a`
(the nearest to `a` among several); seventeen digits always suffice for a
Number. -/
def shortestDecimal (a : ℚ) : Int × List Char :=
  let n := decExp a
  let ks : Nat × Nat :=
    (shortestDigits a n 17 1).getD (17, (Rat.floor (a / pow10 (n - 17))).toNat)
  if ks.2 = 10 ^ ks.1 then (n + 1, decimalDigits (ks.2 / 10)) else (n, decimalDigits ks.2)

/-- The string of `Number::toString` from the exponent `n` and the digits of
`s`: plain digits, padded with zeros or split by a point, for `-6 < n ≤ 21`, and
exponent form otherwise. -/
def layoutDigits (n : Int) (ds : List Char) : List Char :=
  if -6 < n ∧ n ≤ 21 then
    if (ds.length : Int) ≤ n then ds ++ List.replicate (n - ds.length).toNat '0'
    else if 0 < n then ds.take n.toNat ++ ['.'] ++ ds.drop n.toNat
    else ['0', '.'] ++ List.replicate (-n).toNat '0' ++ ds
  else
    let sign : Char := if 0 ≤ n - 1 then '+' else '-'
    match ds with
    | [] => []
    | [d] => [d, 'e', sign] ++ decimalDigits (n - 1).natAbs
    | d :: rest => [d, '.'] ++ rest ++ ['e', sign] ++ decimalDigits (n - 1).natAbs

/-- The string `Number::toString(a)` of a positive Number. -/
def positiveToString (a : ℚ) : List Char :=
  layoutDigits (shortestDecimal a).1 (shortestDecimal a).2

/-- The string `Number::toString(x)`, which is `x.toString()`. -/
def numberToString : JSNum → List Char
  | JSNum.nan => ['N', 'a', 'N']
  | JSNum.posInf => "Infinity".data
  | JSNum.negInf => "-Infinity".data
  | JSNum.fin q =>
    if q = 0 then ['0']
    else if q < 0 then '-' :: positiveToString (-q)
    else positiveToString q

/-- The digits `m` of `toFixed(2)` for a value below `10^21`: the integer `n`
nearest to `100 * a` (the larger on a tie), padded to three digits, with the
point before the last two. -/
def fixedDigits (a : ℚ) : String :=
  let n := (Rat.floor (a * 100 + 1 / 2)).toNat
  let m := decimalDigits n
  let m := List.replicate (3 - m.length) '0' ++ m
  String.mk (m.take (m.length - 2) ++ ['.'] ++ m.drop (m.length - 2))

/-- The method `x.toFixed(2)`. -/
def toFixed2 : JSNum → String
  | JSNum.nan => "NaN"
  | JSNum.posInf => "Infinity"
  | JSNum.negInf => "-Infinity"
  | JSNum.fin q =>
    let s := if q < 0 then "-" else ""
    let a := |q|
    if (10 : ℚ) ^ 21 ≤ a then s ++ String.mk (positiveToString a) else s ++ fixedDigits a

/-! ## `calculateGPA` -/

/-- A JavaScript value, as far as truthiness tells values apart. -/
inductive JSVal where
  | undefined
  | null
  | bool (b : Bool)
  | num (x : JSNum)
  | str (s : String)
  deriving DecidableEq

/-- Truthiness: `undefined`, `null`, `false`, `0`, `NaN` and `""` are falsy. -/
def JSVal.truthy : JSVal → Bool
  | JSVal.undefined => false
  | JSVal.null => false
  | JSVal.bool b => b
  | JSVal.num x => x.truthy
  | JSVal.str s => decide (s ≠ "")

/-- A result record: any value as stored `grade` (`undefined` when the field is
absent), and numeric `totalScore` and `creditUnit` fields that may be absent. -/
structure Result where
  grade : JSVal
  totalScore : Option JSNum
  creditUnit : Option JSNum
  deriving DecidableEq

/-- The Number an optional numeric field is used as: an absent one is `NaN`. -/
def toNumber : Option JSNum → JSNum
  | some x => x
  | none => JSNum.nan

/-- The two accumulators of `calculateGPA`. -/
structure GPAState where
  totalPoints : JSNum
  totalCredits : JSNum
  deriving DecidableEq

/-- The guard `result.grade && result.creditUnit`. -/
def Result.counted (result : Result) : Bool :=
  result.grade.truthy &&
    (match result.creditUnit with
     | some cu => cu.truthy
     | none => false)

/-- The body of the `forEach` callback of `calculateGPA`. -/
def gpaStep (st : GPAState) (result : Result) : GPAState :=
  if result.counted then
    match result.creditUnit with
    | some cu =>
      let gradeInfo := calculateGrade (toNumber result.totalScore)
      { totalPoints := st.totalPoints.add (JSNum.mul (JSNum.fin gradeInfo.point) cu)
        totalCredits := st.totalCredits.add cu }
    | none => st
  else st

/-- The function `calculateGPA(results)`. -/
def calculateGPA (results : List Result) : String :=
  let st := results.foldl gpaStep ⟨0, 0⟩
  if st.totalCredits.gt 0 then toFixed2 (st.totalPoints.div st.totalCredits) else "0.00"

/-- Left-to-right sum of Numbers, starting from zero. -/
def sumNumbers (xs : List JSNum) : JSNum := xs.foldl JSNum.add 0

/-- The credit units of an entry, as a Number. -/
def creditOf (result : Result) : JSNum := toNumber result.creditUnit

/-- The grade point of an entry's total score times its credit units. -/
def weightedPoint (result : Result) : JSNum :=
  JSNum.mul (JSNum.fin (calculateGrade (toNumber result.totalScore)).point) (creditOf result)

/-- The GPA of a list of entries all of which are counted: total weighted points
over total credit units to two decimals, or `"0.00"` without positive credits. -/
def gpaOf (counted : List Result) : String :=
  let p := sumNumbers (counted.map weightedPoint)
  let c := sumNumbers (counted.map creditOf)
  if c.gt 0 then toFixed2 (p.div c) else "0.00"

/-- An entry whose `grade` and `creditUnit` fields are both present, whatever
their values. -/
def Result.present (result : Result) : Bool :=
  decide (result.grade ≠ JSVal.undefined) && result.creditUnit.isSome

/-- The GPA as computed over the entries whose `grade` and `creditUnit` are
present. -/
def gpaOverPresent (results : List Result) : String :=
  gpaOf (results.filter Result.present)

/-- Two entries that differ at most in the value of a truthy stored grade. -/
def sameButGrade (r r' : Result) : Prop :=
  r.totalScore = r'.totalScore ∧ r.creditUnit = r'.creditUnit ∧
    r.grade.truthy = r'.grade.truthy

/-- A Number that is `+Infinity` or a finite value `≥ 0`. -/
def JSNum.NonNeg : JSNum → Prop
  | JSNum.posInf => True
  | JSNum.fin q => 0 ≤ q
  | _ => False

/-- A positive Number: `+Infinity` or a finite value `> 0`. -/
def JSNum.Pos : JSNum → Prop
  | JSNum.posInf => True
  | JSNum.fin q => 0 < q
  | _ => False

/-- Total weighted points of the counted entries. -/
def countedPoints (results : List Result) : JSNum :=
  sumNumbers ((results.filter Result.counted).map weightedPoint)

/-- Total credit units of the counted entries. -/
def countedCredits (results : List Result) : JSNum :=
  sumNumbers ((results.filter Result.counted).map creditOf)

/-- The credit units of an entry whose `creditUnit` is a natural number. -/
def Result.units (result : Result) : ℕ :=
  match result.creditUnit with
  | some (JSNum.fin q) => q.num.toNat
  | _ => 0

/-- The grade point of the total score of an entry. -/
def Result.point (result : Result) : ℕ :=
  (calculateGrade (toNumber result.totalScore)).point

/-- The sum of the credit units of the entries, in exact arithmetic. -/
def totalUnits (results : List Result) : ℕ :=
  (results.map Result.units).sum

/-- The sum of grade point times credit units of the entries, in exact
arithmetic. -/
def totalPoints (results : List Result) : ℕ :=
  (results.map (fun r => r.point * r.units)).sum

/-- The entry `{grade: g, totalScore: s, creditUnit: c}`. -/
def gradedEntry (g : String) (s c : Nat) : Result :=
  ⟨JSVal.str g, some (JSNum.fin s), some (JSNum.fin c)⟩

/-- The entry `{totalScore: s, creditUnit: c}`, without a `grade` field. -/
def bareEntry (s c : Nat) : Result :=
  ⟨JSVal.undefined, some (JSNum.fin s), some (JSNum.fin c)⟩

/-! ## `formatNumber` -/

/-- The class `\w` of a regular expression: `[A-Za-z0-9_]`.  Beyond either end of
the text there is no character, which counts as not a word character. -/
def isWordChar : Option Char → Bool
  | some c => c.isAlphanum || c == '_'
  | none => false

/-- The assertion `\B`: the position between `prev` and `next` is not a word
boundary. -/
def notWordBoundary (prev next : Option Char) : Bool :=
  isWordChar prev == isWordChar next

/-- The assertion `(?!\d)` at the start of `text`. -/
def noDigitAhead : List Char → Bool
  | c :: _ => !c.isDigit
  | [] => true

/-- The pattern `(\d{3})+(?!\d)` at the start of `text`, by backtracking: three
digits, then either further groups or no digit. -/
def groupsThenNoDigit : List Char → Bool
  | a :: b :: c :: rest =>
    a.isDigit && b.isDigit && c.isDigit && (groupsThenNoDigit rest || noDigitAhead rest)
  | _ => false

/-- The pattern `/\B(?=(\d{3})+(?!\d))/` at the position before `text`, `prev`
being the character before it. -/
def commaHere (prev : Option Char) (text : List Char) : Bool :=
  notWordBoundary prev text.head? && groupsThenNoDigit text

/-- The call `replace(/\B(?=(\d{3})+(?!\d))/g, ",")` from the position before
`text` on: a comma goes in at every position where the (empty) pattern matches. -/
def replaceCommas (prev : Option Char) : List Char → List Char
  | [] => if commaHere prev [] then [','] else []
  | c :: cs =>
    (if commaHere prev (c :: cs) then [','] else []) ++ c :: replaceCommas (some c) cs

/-- The function `formatNumber(num)` for a Number `num`. -/
def formatNumber (num : JSNum) : String :=
  String.mk (replaceCommas none (numberToString num))

/-- The decimal numeral of an integer. -/
def intToString (num : Int) : List Char :=
  if num < 0 then '-' :: decimalDigits num.natAbs else decimalDigits num.natAbs

/-- A digit string with a comma at exactly those boundaries between two digits
that have a positive multiple of three digits to their right. -/
def groupDigits : List Char → List Char
  | [] => []
  | d :: ds =>
    d :: ((if ds.length % 3 = 0 ∧ ds ≠ [] then [','] else []) ++ groupDigits ds)

/-- The sign of the numeral of an integer. -/
def signChars (num : Int) : List Char := if num < 0 then ['-'] else []

/-! ## `exportTableToCSV` -/

/-- A table as `exportTableToCSV` reads it: the rows `querySelectorAll('tr')`
finds, in document order, each the `innerText` of the cells
`querySelectorAll('td, th')` finds in it. -/
abbrev Table := List (List String)

/-- The call `text.replace(/"/g, '""')`: every double quote is doubled. -/
def replaceQuotes (text : String) : String :=
  String.mk (text.data.flatMap (fun c => if c = '"' then ['"', '"'] else [c]))

/-- The loop of `Array.prototype.join`: `r` is the string built so far, and the
separator goes before every element but the first. -/
def joinFrom (sep : String) (r : String) (first : Bool) : List String → String
  | [] => r
  | x :: xs => joinFrom sep ((if first then r else r ++ sep) ++ x) false xs

/-- The method `array.join(sep)` on an array of strings. -/
def arrayJoin (sep : String) (xs : List String) : String :=
  joinFrom sep "" true xs

/-- The inner `forEach`: one quoted cell is pushed to `rowData` per cell. -/
def pushCells (cols : List String) : List String :=
  cols.foldl (fun rowData col => rowData ++ ["\"" ++ replaceQuotes col ++ "\""]) []

/-- The outer `forEach`: one joined row is pushed to `csv` per row. -/
def pushRows (rows : Table) : List String :=
  rows.foldl (fun csv row => csv ++ [arrayJoin "," (pushCells row)]) []

/-- The download `exportTableToCSV` triggers: the text of the blob, its type and
the name of the file. -/
structure Download where
  csvContent : String
  type : String
  download : String
  deriving DecidableEq

/-- The function `exportTableToCSV(tableId, filename)` on a document that
resolves ids by `getElementById`; `none` when no table has the id. -/
def exportTableToCSV (getElementById : String → Option Table) (tableId : String)
    (filename : Option String) : Option Download :=
  match getElementById tableId with
  | none => none
  | some table =>
    let csv := pushRows table
    let csvContent := arrayJoin "\n" csv
    some
      { csvContent := csvContent
        type := "text/csv;charset=utf-8;"
        download :=
          match filename with
          | some name => if name ≠ "" then name else "export.csv"
          | none => "export.csv" }

/-- Strings joined by a separator. -/
def joined (sep : String) : List String → String
  | [] => ""
  | [x] => x
  | x :: y :: rest => x ++ sep ++ joined sep (y :: rest)

/-- A cell of the CSV text: its text with every double quote replaced by two,
wrapped in one pair of double quotes. -/
def csvCell (text : String) : String :=
  "\"" ++ String.mk (text.data.flatMap (fun c => if c = '"' then ['"', '"'] else [c])) ++ "\""

/-- The CSV text of a table: rows joined by a newline, each row its cells joined
by commas. -/
def csvText (table : Table) : String :=
  joined "\n" (table.map (fun row => joined "," (row.map csvCell)))

/-- The separator–element pairs that follow the first element of a joined list. -/
def tailJoin (sep : String) : List String → String
  | [] => ""
  | x :: xs => sep ++ x ++ tailJoin sep xs

/-! ## `initTableSearch` -/

/-- A body row of a table: its `textContent` and its `style.display`. -/
structure Row where
  textContent : String
  display : String
  deriving DecidableEq

/-- The method `text.includes(search)`: `search` occurs in `text` at the first
position or at a later one. -/
def includes : List Char → List Char → Bool
  | [], search => search.isPrefixOf []
  | c :: text, search => search.isPrefixOf (c :: text) || includes text search

/-- The `keyup` listener of a search input whose value is `value`, run on the
rows `table.querySelectorAll('tbody tr')` finds; `toLowerCase` is the string
method of that name. -/
def keyupListener (toLowerCase : String → String) (value : String) (rows : List Row) :
    List Row :=
  let searchText := toLowerCase value
  rows.map (fun row =>
    let text := toLowerCase row.textContent
    { row with display := if includes text.data searchText.data then "" else "none" })

/-- A `keyup` on a search input after `initTableSearch`: `table` is what
`getElementById` found for the input's `data-table-search` when the page was
set up, with its current body rows; without a table no listener was added. -/
def searchKeyup (toLowerCase : String → String) (table : Option (List Row)) (value : String) :
    Option (List Row) :=
  match table with
  | some rows => some (keyupListener toLowerCase value rows)
  | none => none

/-- The method `toLowerCase` on ASCII text. -/
def asciiLower (s : String) : String := String.mk (s.data.map Char.toLower)

/-! ## The CSRF wrapper around `fetch` -/

/-- A plain headers object: its properties in insertion order, a value being a
string or `null`. -/
abbrev Headers := List (String × Option String)

/-- The property read `headers[name]`; `none` when there is no such property. -/
def Headers.get : Headers → String → Option (Option String)
  | [], _ => none
  | (k, v) :: rest, name => if k = name then some v else Headers.get rest name

/-- The assignment `headers[name] = value`. -/
def Headers.set : Headers → String → Option String → Headers
  | [], name, value => [(name, value)]
  | (k, v) :: rest, name, value =>
    if k = name then (k, value) :: rest else (k, v) :: Headers.set rest name value

/-- The options object of a `fetch` call: `method` and `headers`, either of which
may be absent, and `other`, the remaining properties, which the wrapper never
reads. -/
structure FetchOptions where
  method : Option String
  headers : Option Headers
  other : List (String × String)
  deriving DecidableEq

/-- The method `toUpperCase`, on ASCII letters.  No character outside ASCII has
`G`, `E` or `T` in its upper-case form, so the comparison with `'GET'` is that of
the built-in method. -/
def toUpperCase (s : String) : String := String.mk (s.data.map Char.toUpper)

/-- The test `options.method && options.method.toUpperCase() !== 'GET'`. -/
def needsToken (method : Option String) : Bool :=
  match method with
  | some m => decide (m ≠ "") && decide (toUpperCase m ≠ "GET")
  | none => false

/-- The function assigned to `window.fetch`: `token` is the `content` attribute
of the meta tag (`null` without the attribute) and `originalFetch` the function
it replaces. -/
def csrfFetch {ρ : Type} (token : Option String)
    (originalFetch : String → Option FetchOptions → ρ)
    (url : String) (options : Option FetchOptions) : ρ :=
  let options : FetchOptions := options.getD ⟨none, none, []⟩
  let options : FetchOptions := { options with headers := some (options.headers.getD []) }
  let options : FetchOptions :=
    if needsToken options.method then
      { options with headers := some (Headers.set (options.headers.getD []) "X-CSRFToken" token) }
    else options
  originalFetch url (some options)

/-- The value of `window.fetch` after the script has run: `csrfMeta` is what
`document.querySelector('meta[name="csrf-token"]')` found, given by its
`content` attribute. -/
def installFetch {ρ : Type} (csrfMeta : Option (Option String))
    (originalFetch : String → Option FetchOptions → ρ) :
    String → Option FetchOptions → ρ :=
  match csrfMeta with
  | some token => csrfFetch token originalFetch
  | none => originalFetch

/-- A stand-in for the original `fetch` that returns the arguments it received. -/
def recordFetch (url : String) (options : Option FetchOptions) :
    String × Option FetchOptions :=
  (url, options)

/-- The eight spellings of `GET`. -/
def getSpellings : List String :=
  ["GET", "GEt", "GeT", "Get", "gET", "gEt", "geT", "get"]

/-! ## `initSidebar` -/

/-- The state the sidebar controller keeps in the page: whether the sidebar has
the class `show` and whether the body has the class `sidebar-open`. -/
structure Page where
  sidebarShow : Bool
  bodyOpen : Bool
  deriving DecidableEq

/-- A click, as the listeners see it: whether `sidebar.contains(e.target)` and
whether `sidebarToggle.contains(e.target)`; the listener on the toggle button
runs exactly for the clicks whose target the button contains. -/
structure Click where
  inSidebar : Bool
  inToggle : Bool
  deriving DecidableEq

/-- The click listener on the toggle button: both classes are toggled. -/
def toggleListener (p : Page) : Page :=
  { sidebarShow := !p.sidebarShow, bodyOpen := !p.bodyOpen }

/-- The click listener on the document: both classes are removed when the target
is outside the sidebar and outside the toggle button. -/
def documentListener (e : Click) (p : Page) : Page :=
  if !e.inSidebar && !e.inToggle then { sidebarShow := false, bodyOpen := false } else p

/-- One click after `initSidebar()`: the event reaches the listener on the
toggle button, if the button contains the target, and then the one on the
document; without the toggle button or without the sidebar no listener was
added. -/
def initSidebar (sidebarToggle sidebar : Bool) (e : Click) (p : Page) : Page :=
  if sidebarToggle && sidebar then
    documentListener e (if e.inToggle then toggleListener p else p)
  else p

/-- A sequence of clicks, in order. -/
def clicks (sidebarToggle sidebar : Bool) (es : List Click) (p : Page) : Page :=
  es.foldl (fun p e => initSidebar sidebarToggle sidebar e p) p

/-- The closed state. -/
def closed : Page := { sidebarShow := false, bodyOpen := false }

/-! ## `debounce` -/

/-- A pending timer: its id, the time in ms at which it is due, and the arguments
the callback `later` has captured. -/
structure Timer (α : Type) where
  id : Nat
  due : Nat
  args : α
  deriving DecidableEq

/-- The page around one wrapper returned by `debounce(func, wait)`: the clock,
the timers that are pending, the variable `timeout` of the closure and the calls
of `func` made so far, each with its time and arguments. -/
structure Env (α : Type) where
  now : Nat
  nextId : Nat
  timers : List (Timer α)
  timeout : Option Nat
  invoked : List (Nat × α)
  deriving DecidableEq

/-- The page before the wrapper is first called. -/
def Env.init (α : Type) : Env α :=
  { now := 0, nextId := 1, timers := [], timeout := none, invoked := [] }

/-- The call `clearTimeout(id)`; `none` is `undefined`. -/
def clearTimeout {α : Type} (id : Option Nat) (env : Env α) : Env α :=
  match id with
  | some i => { env with timers := env.timers.filter (fun t => t.id != i) }
  | none => env

/-- The delay a browser gives a timer.  `setTimeout` takes its delay as a 32-bit
signed integer: the whole number of ms modulo `2^32`, read as negative from
`2^31` on, and a negative delay counts as zero. -/
def timerDelay (wait : Nat) : Nat :=
  if wait % 2 ^ 32 < 2 ^ 31 then wait % 2 ^ 32 else 0

/-- The call `setTimeout(later, wait)`, `later` having captured `args`: the id of
the new timer and the page with the timer pending, due after the delay the
browser makes of `wait`. -/
def setTimeout {α : Type} (args : α) (wait : Nat) (env : Env α) : Nat × Env α :=
  (env.nextId,
    { env with
      nextId := env.nextId + 1
      timers :=
        env.timers ++ [{ id := env.nextId, due := env.now + timerDelay wait, args := args }] })

/-- The callback `later`: `clearTimeout(timeout); func(...args)`. -/
def later {α : Type} (args : α) (env : Env α) : Env α :=
  let env := clearTimeout env.timeout env
  { env with invoked := env.invoked ++ [(env.now, args)] }

/-- The wrapper `executedFunction(...args)`:
`clearTimeout(timeout); timeout = setTimeout(later, wait)`. -/
def executedFunction {α : Type} (wait : Nat) (args : α) (env : Env α) : Env α :=
  let env := clearTimeout env.timeout env
  let r := setTimeout args wait env
  { r.2 with timeout := some r.1 }

/-- The pending timer that fires first: the earliest due, the oldest among
equals. -/
def nextTimer {α : Type} : List (Timer α) → Option (Timer α)
  | [] => none
  | t :: ts =>
    match nextTimer ts with
    | some b => if b.due < t.due then some b else some t
    | none => some t

/-- The event loop runs the timers due by `limit` (all of them for `none`), each
at the time it is due; `fuel` bounds the number of timers run. -/
def runTimers {α : Type} (limit : Option Nat) : Nat → Env α → Env α
  | 0, env => env
  | fuel + 1, env =>
    match nextTimer env.timers with
    | none => env
    | some t =>
      if (match limit with
          | some l => decide (t.due ≤ l)
          | none => true) then
        runTimers limit fuel
          (later t.args
            { env with
              now := max env.now t.due
              timers := env.timers.filter (fun u => u.id != t.id) })
      else env

/-- The clock advances by `gap` ms: the timers due by then run, every pending
timer being run at most once. -/
def advance {α : Type} (gap : Nat) (env : Env α) : Env α :=
  let t := env.now + gap
  { runTimers (some t) env.timers.length env with now := t }

/-- The call `debounce(func, wait)`: the wrapper `executedFunction` it returns.
The function `func` is the one whose calls the page records in `invoked`, and the
variable `timeout` of the new closure is `undefined`, as in `Env.init`. -/
def debounce {α : Type} (wait : Nat) : α → Env α → Env α :=
  fun args env => executedFunction wait args env

/-- A session: calls of the wrapper, each given by the time elapsed since the
previous one (since the start for the first) and its arguments. -/
def session {α : Type} (wait : Nat) (calls : List (Nat × α)) (env : Env α) : Env α :=
  calls.foldl (fun env c => debounce wait c.2 (advance c.1 env)) env

/-- The calls of `func` a session leads to, with their times, once every pending
timer has run. -/
def invocations {α : Type} (wait : Nat) (calls : List (Nat × α)) : List (Nat × α) :=
  let env := session wait calls (Env.init α)
  (runTimers none env.timers.length env).invoked

/-- The time of the last call of a session. -/
def lastCallTime {α : Type} (calls : List (Nat × α)) : Nat :=
  (calls.map Prod.fst).sum

/-- The page right after a call of the wrapper at time `t` with arguments `a`
when `func` has not been called yet: one timer is pending, due at `t + wait`,
holding `a`, and `timeout` is its id. -/
def Armed {α : Type} (wait : Nat) (a : α) (t : Nat) (env : Env α) : Prop :=
  ∃ id next, env =
    { now := t, nextId := next, timers := [{ id := id, due := t + wait, args := a }],
      timeout := some id, invoked := [] }

/-- The arguments of the last call of a session that starts with arguments `a`. -/
def lastArgs {α : Type} (a : α) : List (Nat × α) → α
  | [] => a
  | c :: cs => lastArgs c.2 cs
/-! ## Theorems -/

theorem ge_fin (a b : ℚ) : JSNum.ge (JSNum.fin a) (JSNum.fin b) = decide (b ≤ a) := by
  by_cases h : b ≤ a
  · simp [JSNum.ge, JSNum.lt, h]
  · simp [JSNum.ge, JSNum.lt, h, lt_of_not_le h]

theorem lt_fin (a b : ℚ) : JSNum.lt (JSNum.fin a) (JSNum.fin b) = decide (a < b) := by
  simp [JSNum.lt]

theorem calculateGrade_fin (q : ℚ) :
    calculateGrade (JSNum.fin q) =
      if 70 ≤ q then ⟨"A", 5, "bg-success"⟩
      else if 60 ≤ q then ⟨"B", 4, "bg-success"⟩
      else if 50 ≤ q then ⟨"C", 3, "bg-warning text-dark"⟩
      else if 45 ≤ q then ⟨"D", 2, "bg-warning text-dark"⟩
      else if 40 ≤ q then ⟨"E", 1, "bg-secondary"⟩
      else ⟨"F", 0, "bg-danger"⟩ := by
  have h (n : Nat) : JSNum.ge (JSNum.fin q) (OfNat.ofNat n) = decide (((n : ℕ) : ℚ) ≤ q) :=
    ge_fin q n
  simp only [calculateGrade, h, decide_eq_true_eq]
  norm_num

/-- C1: for every numeric score `s`, `calculateGrade(s)` is A/5 when `s >= 70`,
B/4 when `60 <= s < 70`, C/3 when `50 <= s < 60`, D/2 when `45 <= s < 50`, E/1
when `40 <= s < 45` and F/0 when `s < 40`; the scores 70, 69, 60, 59, 50, 49,
45, 44, 40, 39 get the grades A, B, B, C, C, D, D, E, E, F. -/
theorem calculateGrade_bands (s : JSNum) :
    (JSNum.ge s 70 = true → gradeOf s = ("A", 5)) ∧
    (JSNum.ge s 60 = true → JSNum.lt s 70 = true → gradeOf s = ("B", 4)) ∧
    (JSNum.ge s 50 = true → JSNum.lt s 60 = true → gradeOf s = ("C", 3)) ∧
    (JSNum.ge s 45 = true → JSNum.lt s 50 = true → gradeOf s = ("D", 2)) ∧
    (JSNum.ge s 40 = true → JSNum.lt s 45 = true → gradeOf s = ("E", 1)) ∧
    (JSNum.lt s 40 = true → gradeOf s = ("F", 0)) ∧
    [70, 69, 60, 59, 50, 49, 45, 44, 40, 39].map (fun n => (calculateGrade n).grade)
      = ["A", "B", "B", "C", "C", "D", "D", "E", "E", "F"] := by
  have hex : [70, 69, 60, 59, 50, 49, 45, 44, 40, 39].map
      (fun n => (calculateGrade n).grade)
      = ["A", "B", "B", "C", "C", "D", "D", "E", "E", "F"] := by
    have h (n : Nat) : (OfNat.ofNat n : JSNum) = JSNum.fin (n : ℚ) := rfl
    simp only [List.map, h, calculateGrade_fin]
    norm_num
  have hge (n : Nat) (q : ℚ) :
      JSNum.ge (JSNum.fin q) (OfNat.ofNat n) = decide (((n : ℕ) : ℚ) ≤ q) := ge_fin q n
  have hlt (n : Nat) (q : ℚ) :
      JSNum.lt (JSNum.fin q) (OfNat.ofNat n) = decide (q < ((n : ℕ) : ℚ)) := lt_fin q n
  cases s with
  | nan => refine ⟨?_, ?_, ?_, ?_, ?_, ?_, hex⟩ <;> simp [JSNum.ge, JSNum.lt]
  | posInf =>
    refine ⟨?_, ?_, ?_, ?_, ?_, ?_, hex⟩ <;>
      simp [JSNum.ge, JSNum.lt, gradeOf, calculateGrade, OfNat.ofNat]
  | negInf =>
    refine ⟨?_, ?_, ?_, ?_, ?_, ?_, hex⟩ <;>
      simp [JSNum.ge, JSNum.lt, gradeOf, calculateGrade, OfNat.ofNat]
  | fin q =>
    simp only [hge, hlt, decide_eq_true_eq, gradeOf, calculateGrade_fin, Nat.cast_ofNat]
    refine ⟨?_, ?_, ?_, ?_, ?_, ?_, hex⟩ <;> intros <;>
      (split_ifs <;> first | rfl | (exfalso; linarith))

/-- The band theorem at the score 65: it lies in the B band. -/
theorem calculateGrade_bands_witness :
    JSNum.ge 65 60 = true ∧ JSNum.lt 65 70 = true ∧ gradeOf 65 = ("B", 4) :=
  ⟨by decide!, by decide!,
    (calculateGrade_bands 65).2.1 (by decide!) (by decide!)⟩

/-! ### `calculateGPA` -/

theorem counted_creditUnit {r : Result} (h : r.counted = true) :
    ∃ cu, r.creditUnit = some cu ∧ cu.truthy = true := by
  unfold Result.counted at h
  cases hc : r.creditUnit with
  | none => simp [hc] at h
  | some cu =>
    rw [hc] at h
    exact ⟨cu, rfl, by simpa using (Bool.and_eq_true _ _ ▸ h).2⟩

theorem gpaStep_counted {r : Result} (st : GPAState) (h : r.counted = true) :
    gpaStep st r =
      ⟨st.totalPoints.add (weightedPoint r), st.totalCredits.add (creditOf r)⟩ := by
  obtain ⟨cu, hcu, -⟩ := counted_creditUnit h
  simp [gpaStep, h, hcu, weightedPoint, creditOf, toNumber]

theorem gpaStep_skipped {r : Result} (st : GPAState) (h : r.counted = false) :
    gpaStep st r = st := by
  simp [gpaStep, h]

theorem foldl_gpaStep (rs : List Result) (st : GPAState) :
    rs.foldl gpaStep st =
      ⟨((rs.filter Result.counted).map weightedPoint).foldl JSNum.add st.totalPoints,
       ((rs.filter Result.counted).map creditOf).foldl JSNum.add st.totalCredits⟩ := by
  induction rs generalizing st with
  | nil => rfl
  | cons r rs ih =>
    by_cases h : r.counted = true
    · rw [List.foldl_cons, ih, gpaStep_counted st h]
      simp [List.filter_cons, h]
    · have h' : r.counted = false := by simpa using h
      rw [List.foldl_cons, ih, gpaStep_skipped st h']
      simp [List.filter_cons, h']

theorem calculateGPA_eq_gpaOf (rs : List Result) :
    calculateGPA rs = gpaOf (rs.filter Result.counted) := by
  simp only [calculateGPA, gpaOf, sumNumbers, foldl_gpaStep]

theorem counted_congr {r r' : Result} (h : sameButGrade r r') : r.counted = r'.counted := by
  obtain ⟨-, hc, hg⟩ := h
  simp [Result.counted, hc, hg]

theorem filter_counted_congr {rs rs' : List Result} (h : List.Forall₂ sameButGrade rs rs') :
    (rs.filter Result.counted).map weightedPoint
        = (rs'.filter Result.counted).map weightedPoint ∧
      (rs.filter Result.counted).map creditOf = (rs'.filter Result.counted).map creditOf := by
  induction h with
  | nil => exact ⟨rfl, rfl⟩
  | @cons r r' l l' hr _ ih =>
    have hc := counted_congr hr
    obtain ⟨hs, hcu, -⟩ := hr
    have hw : weightedPoint r = weightedPoint r' := by simp [weightedPoint, creditOf, hs, hcu]
    have hcr : creditOf r = creditOf r' := by simp [creditOf, hcu]
    by_cases h : r'.counted = true
    · simp [List.filter_cons, hc, h, hw, hcr, ih.1, ih.2]
    · simp [List.filter_cons, hc, h, ih.1, ih.2]

/-! ### Rounding keeps positive Numbers positive -/

theorem log2Loop_eq (fuel n : Nat) (h : n ≤ fuel) : log2Loop fuel n = Nat.log2 n := by
  induction fuel generalizing n with
  | zero =>
    have : n = 0 := by omega
    subst this
    unfold Nat.log2
    simp [log2Loop]
  | succ fuel ih =>
    unfold log2Loop Nat.log2
    by_cases h2 : 2 ≤ n
    · rw [if_pos h2, if_pos h2, ih (n / 2) (by omega)]
    · rw [if_neg h2, if_neg h2]

/-- The loop computes the binary logarithm. -/
theorem ilog2_eq (n : Nat) : ilog2 n = Nat.log2 n :=
  log2Loop_eq n n (le_refl n)

theorem pow2_eq (z : Int) : pow2 z = (2 : ℚ) ^ z := by
  unfold pow2
  split_ifs with h
  · lift z to ℕ using h
    simp
  · obtain ⟨n, rfl⟩ : ∃ n : ℕ, z = -(n : ℤ) := ⟨(-z).toNat, by omega⟩
    simp [zpow_neg, one_div]

theorem pow2_pos (z : Int) : 0 < pow2 z := by
  rw [pow2_eq]; positivity

theorem pow2_mono {z w : Int} (h : z ≤ w) : pow2 z ≤ pow2 w := by
  rw [pow2_eq, pow2_eq]
  exact zpow_le_zpow_right₀ (by norm_num) h

theorem roundHalfEven_ge_floor (q : ℚ) : Rat.floor q ≤ roundHalfEven q := by
  unfold roundHalfEven
  simp only
  split_ifs <;> omega

theorem one_le_roundHalfEven {q : ℚ} (h : 1 ≤ q) : 1 ≤ roundHalfEven q :=
  le_trans (Rat.le_floor.2 (by simpa using h)) (roundHalfEven_ge_floor q)

theorem binExp_le (q : ℚ) :
    binExp q ≤ (Nat.log2 q.num.natAbs : Int) - (Nat.log2 q.den : Int) := by
  unfold binExp
  simp only [ilog2_eq]
  split_ifs <;> omega

theorem pow2_log_lt {q : ℚ} (hq : 0 < q) :
    pow2 ((Nat.log2 q.num.natAbs : Int) - (Nat.log2 q.den : Int) - 1) ≤ q := by
  have hnum : 0 < q.num := Rat.num_pos.2 hq
  have hn0 : q.num.natAbs ≠ 0 := by omega
  have h1 : ((2 ^ Nat.log2 q.num.natAbs : ℕ) : ℚ) ≤ (q.num.natAbs : ℚ) := by
    exact_mod_cast Nat.log2_self_le hn0
  have h2 : (q.den : ℚ) ≤ ((2 ^ (Nat.log2 q.den + 1) : ℕ) : ℚ) := by
    exact_mod_cast (Nat.lt_log2_self (n := q.den)).le
  have hden : (0 : ℚ) < q.den := by exact_mod_cast q.den_pos
  have hqe : q = (q.num.natAbs : ℚ) / (q.den : ℚ) := by
    have : ((q.num.natAbs : ℤ) : ℚ) = (q.num : ℚ) := by
      rw [Int.natAbs_of_nonneg hnum.le]
    rw [← Int.cast_natCast, this]
    exact (Rat.num_div_den q).symm
  rw [pow2_eq]
  have hexp : (2 : ℚ) ^ ((Nat.log2 q.num.natAbs : Int) - (Nat.log2 q.den : Int) - 1)
      = ((2 ^ Nat.log2 q.num.natAbs : ℕ) : ℚ) / ((2 ^ (Nat.log2 q.den + 1) : ℕ) : ℚ) := by
    have : ((Nat.log2 q.num.natAbs : Int) - (Nat.log2 q.den : Int) - 1)
        = (Nat.log2 q.num.natAbs : Int) - ((Nat.log2 q.den + 1 : ℕ) : Int) := by
      push_cast; ring
    rw [this, zpow_sub₀ (by norm_num : (2 : ℚ) ≠ 0), zpow_natCast, zpow_natCast]
    push_cast
    rfl
  rw [hexp]
  conv_rhs => rw [hqe]
  have hp : (0 : ℚ) < ((2 ^ (Nat.log2 q.den + 1) : ℕ) : ℚ) := by positivity
  calc ((2 ^ Nat.log2 q.num.natAbs : ℕ) : ℚ) / ((2 ^ (Nat.log2 q.den + 1) : ℕ) : ℚ)
      ≤ (q.num.natAbs : ℚ) / ((2 ^ (Nat.log2 q.den + 1) : ℕ) : ℚ) :=
        div_le_div_of_nonneg_right h1 hp.le
    _ ≤ (q.num.natAbs : ℚ) / (q.den : ℚ) :=
        div_le_div_of_nonneg_left (by positivity) hden h2

/-- The spacing of Numbers around a positive value that is at least the least
positive Number is at most that value. -/
theorem ulp_le {q : ℚ} (hq : 0 < q) (hmin : pow2 (-1074) ≤ q) :
    pow2 (max (binExp q) (-1022) - 52) ≤ q := by
  rcases le_total (binExp q) (-1022) with h | h
  · rw [max_eq_right h]
    exact hmin
  · rw [max_eq_left h]
    refine le_trans (pow2_mono ?_) (pow2_log_lt hq)
    have := binExp_le q
    omega

theorem roundPos_pos {q r : ℚ} (hq : 0 < q) (hmin : pow2 (-1074) ≤ q)
    (h : roundPos q = some r) : 0 < r := by
  unfold roundPos at h
  simp only at h
  split_ifs at h
  have hu := pow2_pos (max (binExp q) (-1022) - 52)
  have hm : 1 ≤ roundHalfEven (q / pow2 (max (binExp q) (-1022) - 52)) :=
    one_le_roundHalfEven ((one_le_div hu).2 (ulp_le hq hmin))
  have hm' : (1 : ℚ) ≤ (roundHalfEven (q / pow2 (max (binExp q) (-1022) - 52)) : ℚ) := by
    exact_mod_cast hm
  rw [← Option.some.inj h]
  exact mul_pos (by linarith) hu

theorem roundToDouble_pos {q : ℚ} (hq : 0 < q) (hmin : pow2 (-1074) ≤ q) :
    (roundToDouble q).Pos := by
  unfold roundToDouble
  rw [if_neg hq.ne', if_pos hq]
  cases h : roundPos q with
  | none => trivial
  | some r => exact roundPos_pos hq hmin h

theorem double_ge_min {q : ℚ} (hq : 0 < q) (h : roundToDouble q = JSNum.fin q) :
    pow2 (-1074) ≤ q := by
  unfold roundToDouble at h
  rw [if_neg hq.ne', if_pos hq] at h
  cases hr : roundPos q with
  | none => rw [hr] at h; cases h
  | some r =>
    rw [hr] at h
    have hrq : r = q := JSNum.fin.inj h
    subst hrq
    unfold roundPos at hr
    simp only at hr
    split_ifs at hr
    have hu := pow2_pos (max (binExp r) (-1022) - 52)
    have hval := Option.some.inj hr
    have hm : (0 : ℚ) < (roundHalfEven (r / pow2 (max (binExp r) (-1022) - 52)) : ℚ) := by
      by_contra hneg
      have : (roundHalfEven (r / pow2 (max (binExp r) (-1022) - 52)) : ℚ)
          * pow2 (max (binExp r) (-1022) - 52) ≤ 0 :=
        mul_nonpos_of_nonpos_of_nonneg (not_lt.1 hneg) hu.le
      linarith
    have hm1 : (1 : ℚ) ≤ (roundHalfEven (r / pow2 (max (binExp r) (-1022) - 52)) : ℚ) := by
      have : 0 < roundHalfEven (r / pow2 (max (binExp r) (-1022) - 52)) := by exact_mod_cast hm
      exact_mod_cast this
    have hle : pow2 (-1074) ≤ pow2 (max (binExp r) (-1022) - 52) :=
      pow2_mono (by have := le_max_right (binExp r) (-1022); omega)
    calc pow2 (-1074) ≤ pow2 (max (binExp r) (-1022) - 52) := hle
      _ = 1 * pow2 (max (binExp r) (-1022) - 52) := (one_mul _).symm
      _ ≤ (roundHalfEven (r / pow2 (max (binExp r) (-1022) - 52)) : ℚ)
            * pow2 (max (binExp r) (-1022) - 52) := mul_le_mul_of_nonneg_right hm1 hu.le
      _ = r := hval

theorem pos_nonNeg {a : JSNum} (h : a.Pos) : a.NonNeg := by
  cases a with
  | fin q => exact le_of_lt h
  | posInf => trivial
  | nan => exact h
  | negInf => exact h

theorem gt_zero_iff (a : JSNum) : a.gt 0 = true ↔ a.Pos := by
  have h0 : (0 : JSNum) = JSNum.fin 0 := by
    show JSNum.fin ((0 : ℕ) : ℚ) = JSNum.fin 0
    simp
  cases a <;> simp [JSNum.gt, JSNum.lt, JSNum.Pos, h0]

theorem add_pos_of_nonNeg {a c : JSNum} (ha : a.NonNeg) (hd : c.isDouble = true)
    (hc : c.Pos) : (a.add c).Pos := by
  cases a with
  | nan => exact ha.elim
  | negInf => exact ha.elim
  | posInf => cases c <;> first | exact hc.elim | trivial
  | fin x =>
    cases c with
    | nan => exact hc.elim
    | negInf => exact hc.elim
    | posInf => trivial
    | fin q =>
      have hq : 0 < q := hc
      have hx : 0 ≤ x := ha
      have hmin := double_ge_min hq (by simpa [JSNum.isDouble] using hd)
      exact roundToDouble_pos (by linarith) (by linarith)

theorem foldl_add_pos (cs : List JSNum) (hcs : ∀ c ∈ cs, c.isDouble = true ∧ c.Pos)
    (a : JSNum) (ha : a.NonNeg) :
    (cs.foldl JSNum.add a).NonNeg ∧ (cs ≠ [] → (cs.foldl JSNum.add a).Pos) := by
  induction cs generalizing a with
  | nil => exact ⟨ha, fun h => (h rfl).elim⟩
  | cons c cs ih =>
    have hc := hcs c (List.mem_cons_self _ _)
    have hstep : (a.add c).Pos := add_pos_of_nonNeg ha hc.1 hc.2
    have hrest := ih (fun d hd => hcs d (List.mem_cons_of_mem _ hd)) (a.add c)
      (pos_nonNeg hstep)
    refine ⟨hrest.1, fun _ => ?_⟩
    by_cases hnil : cs = []
    · subst hnil; exact hstep
    · exact hrest.2 hnil

/-! ### Exact sums of natural credit units -/

theorem roundHalfEven_intCast (z : ℤ) : roundHalfEven (z : ℚ) = z := by
  unfold roundHalfEven
  have hf : Rat.floor (z : ℚ) = z := by
    rw [← Int.floor_intCast (α := ℚ) z]
    rfl
  simp only [hf, sub_self]
  norm_num

theorem roundPos_natCast (n : ℕ) (h0 : 0 < n) (h : n < 2 ^ 53) :
    roundPos (n : ℚ) = some (n : ℚ) := by
  have hlog : Nat.log2 n < 53 := (Nat.log2_lt (by omega)).2 h
  have he : max (binExp (n : ℚ)) (-1022) ≤ 52 := by
    have := binExp_le (n : ℚ)
    simp only [Rat.num_natCast, Int.natAbs_ofNat, Rat.den_natCast] at this
    have h1 : Nat.log2 1 = 0 := by decide!
    rw [h1] at this
    have : binExp (n : ℚ) ≤ 52 := by omega
    exact max_le this (by norm_num)
  obtain ⟨k, hk⟩ : ∃ k : ℕ, max (binExp (n : ℚ)) (-1022) - 52 = -(k : ℤ) :=
    ⟨(52 - max (binExp (n : ℚ)) (-1022)).toNat, by omega⟩
  unfold roundPos
  simp only [hk, pow2_eq]
  have hdiv : (n : ℚ) / (2 : ℚ) ^ (-(k : ℤ)) = ((n * 2 ^ k : ℕ) : ℤ) := by
    rw [zpow_neg, zpow_natCast, div_inv_eq_mul]
    push_cast
    rfl
  rw [hdiv, roundHalfEven_intCast]
  have hval : (((n * 2 ^ k : ℕ) : ℤ) : ℚ) * (2 : ℚ) ^ (-(k : ℤ)) = n := by
    rw [zpow_neg, zpow_natCast]
    push_cast
    field_simp
  rw [hval]
  have hbig : ¬ (2 : ℚ) ^ (1024 : ℤ) ≤ (n : ℚ) := by
    have h1 : (n : ℚ) < (2 : ℚ) ^ 53 := by exact_mod_cast h
    have h2 : (2 : ℚ) ^ 53 ≤ (2 : ℚ) ^ (1024 : ℤ) := by norm_num
    linarith
  rw [if_neg hbig]

theorem roundToDouble_natCast (n : ℕ) (h : n < 2 ^ 53) :
    roundToDouble (n : ℚ) = JSNum.fin (n : ℚ) := by
  unfold roundToDouble
  rcases Nat.eq_zero_or_pos n with h0 | h0
  · subst h0
    simp
  · have hq : (0 : ℚ) < n := by exact_mod_cast h0
    rw [if_neg hq.ne', if_pos hq, roundPos_natCast n h0 h]


theorem point_le_five (s : JSNum) : (calculateGrade s).point ≤ 5 := by
  unfold calculateGrade
  split_ifs <;> simp

theorem add_natCast (a b : ℕ) (h : a + b < 2 ^ 53) :
    JSNum.add (JSNum.fin (a : ℚ)) (JSNum.fin (b : ℚ)) = JSNum.fin ((a + b : ℕ) : ℚ) := by
  show roundToDouble ((a : ℚ) + (b : ℚ)) = _
  rw [← Nat.cast_add, roundToDouble_natCast _ h]

theorem mul_natCast (a b : ℕ) (h : a * b < 2 ^ 53) :
    JSNum.mul (JSNum.fin (a : ℚ)) (JSNum.fin (b : ℚ)) = JSNum.fin ((a * b : ℕ) : ℚ) := by
  show roundToDouble ((a : ℚ) * (b : ℚ)) = _
  rw [← Nat.cast_mul, roundToDouble_natCast _ h]

theorem totalPoints_le (rs : List Result) : totalPoints rs ≤ 5 * totalUnits rs := by
  induction rs with
  | nil => simp [totalPoints, totalUnits]
  | cons r rs ih =>
    have hp : r.point ≤ 5 := point_le_five _
    have : r.point * r.units ≤ 5 * r.units := Nat.mul_le_mul_right _ hp
    simp only [totalPoints, totalUnits, List.map_cons, List.sum_cons] at ih ⊢
    omega

/-- On entries with natural credit units whose total stays below `2^53 / 5`,
both accumulators of `calculateGPA` hold the exact sums. -/
theorem foldl_add_exact (rs : List Result)
    (hunits : ∀ r ∈ rs, r.creditUnit = some (JSNum.fin (r.units : ℚ))) (p c : ℕ)
    (hsmall : 5 * (c + totalUnits rs) < 2 ^ 53) (hp : p ≤ 5 * c) :
    (rs.map weightedPoint).foldl JSNum.add (JSNum.fin (p : ℚ))
        = JSNum.fin ((p + totalPoints rs : ℕ) : ℚ) ∧
      (rs.map creditOf).foldl JSNum.add (JSNum.fin (c : ℚ))
        = JSNum.fin ((c + totalUnits rs : ℕ) : ℚ) := by
  induction rs generalizing p c with
  | nil => simp [totalPoints, totalUnits]
  | cons r rs ih =>
    have hr := hunits r (List.mem_cons_self _ _)
    have hrest : ∀ x ∈ rs, x.creditUnit = some (JSNum.fin (x.units : ℚ)) :=
      fun x hx => hunits x (List.mem_cons_of_mem _ hx)
    have hpt : r.point ≤ 5 := point_le_five _
    have hmul : r.point * r.units ≤ 5 * r.units := Nat.mul_le_mul_right _ hpt
    have htu : totalUnits (r :: rs) = r.units + totalUnits rs := by
      simp [totalUnits]
    have htp : totalPoints (r :: rs) = r.point * r.units + totalPoints rs := by
      simp [totalPoints]
    rw [htu] at hsmall
    have hcred : creditOf r = JSNum.fin (r.units : ℚ) := by
      simp [creditOf, toNumber, hr]
    have hb : r.point * r.units < 2 ^ 53 := by omega
    have hw : weightedPoint r = JSNum.fin ((r.point * r.units : ℕ) : ℚ) := by
      rw [weightedPoint, hcred]
      exact mul_natCast r.point r.units hb
    have ih' := ih hrest (p + r.point * r.units) (c + r.units) (by omega) (by omega)
    simp only [List.map_cons, List.foldl_cons, hcred, hw]
    rw [add_natCast _ _ (by omega), add_natCast _ _ (by omega), ih'.1, ih'.2, htu, htp]
    constructor <;> congr 2 <;> omega

/-! ### The claims on `calculateGPA` -/

/-- C2, as stated, fails: the entry `{grade: "", totalScore: 70, creditUnit: 3}`
has both fields present and is not counted, so the result is `"0.00"` where
counting the present entries gives `"5.00"`; and changing only the value of the
stored grade from `""` to `"A"` changes the result to `"5.00"`. -/
theorem calculateGPA_presence_counterexample :
    (gradedEntry "" 70 3).present = true ∧
    calculateGPA [gradedEntry "" 70 3] = "0.00" ∧
    gpaOverPresent [gradedEntry "" 70 3] = "5.00" ∧
    calculateGPA [gradedEntry "A" 70 3] = "5.00" ∧
    calculateGPA [gradedEntry "" 70 3] ≠ gpaOverPresent [gradedEntry "" 70 3] := by
  decide!

/-- C2 (amended): `calculateGPA` counts exactly the entries whose stored grade
and creditUnit are both truthy (the guard `result.grade && result.creditUnit`);
with `P` the sum over the counted entries of
`calculateGrade(totalScore).point * creditUnit` and `C` the sum of their
creditUnit it returns `(P / C).toFixed(2)` when `C > 0` and `"0.00"` when `C` is
zero, in particular for the empty list; and replacing stored grades by other
values of the same truthiness never changes the result. -/
theorem calculateGPA_counts_truthy (rs rs' : List Result)
    (h : List.Forall₂ sameButGrade rs rs') :
    (∀ r : Result, r.counted = true ↔
      r.grade.truthy = true ∧ ∃ cu, r.creditUnit = some cu ∧ cu.truthy = true) ∧
    ((countedCredits rs).gt 0 = true →
      calculateGPA rs = toFixed2 ((countedPoints rs).div (countedCredits rs))) ∧
    (countedCredits rs = 0 → calculateGPA rs = "0.00") ∧
    calculateGPA [] = "0.00" ∧
    calculateGPA rs' = calculateGPA rs := by
  refine ⟨fun r => ⟨fun hr => ?_, fun hr => ?_⟩, fun hc => ?_, fun hc => ?_, by decide!, ?_⟩
  · obtain ⟨cu, hcu, ht⟩ := counted_creditUnit hr
    refine ⟨?_, cu, hcu, ht⟩
    unfold Result.counted at hr
    exact (Bool.and_eq_true _ _ ▸ hr).1
  · obtain ⟨hg, cu, hcu, ht⟩ := hr
    simp [Result.counted, hg, hcu, ht]
  · rw [calculateGPA_eq_gpaOf, gpaOf]
    simp only [countedCredits, countedPoints] at hc ⊢
    rw [if_pos hc]
  · rw [calculateGPA_eq_gpaOf, gpaOf]
    simp only [countedCredits] at hc
    simp only [hc]
    rfl
  · rw [calculateGPA_eq_gpaOf, calculateGPA_eq_gpaOf, gpaOf, gpaOf,
      (filter_counted_congr h).1, (filter_counted_congr h).2]

/-- The amended C2 at `[{grade: "A", totalScore: 70, creditUnit: 3}]` against the
same list with the stored grade `"F"`: both give `"5.00"`. -/
theorem calculateGPA_counts_truthy_witness :
    List.Forall₂ sameButGrade [gradedEntry "A" 70 3] [gradedEntry "F" 70 3] ∧
    (countedCredits [gradedEntry "A" 70 3]).gt 0 = true ∧
    calculateGPA [gradedEntry "A" 70 3] = "5.00" ∧
    calculateGPA [gradedEntry "F" 70 3] = calculateGPA [gradedEntry "A" 70 3] :=
  have hrel : List.Forall₂ sameButGrade [gradedEntry "A" 70 3] [gradedEntry "F" 70 3] :=
    List.Forall₂.cons ⟨rfl, rfl, by decide⟩ List.Forall₂.nil
  ⟨hrel, by decide!,
    ((calculateGPA_counts_truthy _ _ hrel).2.1 (by decide!)).trans (by decide!),
    (calculateGPA_counts_truthy _ _ hrel).2.2.2.2⟩

theorem filter_counted_of_all {rs : List Result} (h : ∀ r ∈ rs, r.counted = true) :
    rs.filter Result.counted = rs :=
  List.filter_eq_self.2 h

theorem filter_counted_of_none {rs : List Result} (h : ∀ r ∈ rs, r.counted = false) :
    rs.filter Result.counted = [] :=
  List.filter_eq_nil_iff.2 (fun r hr => by simp [h r hr])

/-- With natural credit units the result is the exact credit-weighted average,
rounded once to a Number and printed with two decimals. -/
theorem calculateGPA_exact (rs : List Result) (hne : rs ≠ [])
    (hgood : ∀ r ∈ rs, r.grade.truthy = true ∧ 0 < r.units ∧
      r.creditUnit = some (JSNum.fin (r.units : ℚ)))
    (hsmall : 5 * totalUnits rs < 2 ^ 53) :
    calculateGPA rs
      = toFixed2 (roundToDouble ((totalPoints rs : ℚ) / (totalUnits rs : ℚ))) := by
  have hcounted : ∀ r ∈ rs, r.counted = true := by
    intro r hr
    obtain ⟨hg, hu, hc⟩ := hgood r hr
    have : (r.units : ℚ) ≠ 0 := by exact_mod_cast hu.ne'
    simp [Result.counted, hg, hc, JSNum.truthy, this]
  have hsum := foldl_add_exact rs (fun r hr => (hgood r hr).2.2) 0 0
    (by simpa using hsmall) (by simp)
  have hpos : 0 < totalUnits rs := by
    cases rs with
    | nil => exact (hne rfl).elim
    | cons r rs =>
      have := (hgood r (List.mem_cons_self _ _)).2.1
      simp only [totalUnits, List.map_cons, List.sum_cons]
      omega
  have hposq : (0 : ℚ) < (totalUnits rs : ℚ) := by exact_mod_cast hpos
  have hP : sumNumbers (rs.map weightedPoint) = JSNum.fin ((totalPoints rs : ℕ) : ℚ) := by
    have := hsum.1
    simpa [sumNumbers] using this
  have hC : sumNumbers (rs.map creditOf) = JSNum.fin ((totalUnits rs : ℕ) : ℚ) := by
    have := hsum.2
    simpa [sumNumbers] using this
  rw [calculateGPA_eq_gpaOf, filter_counted_of_all hcounted, gpaOf]
  simp only [hP, hC]
  have hgt : (JSNum.fin (totalUnits rs : ℚ)).gt 0 = true :=
    (gt_zero_iff _).2 hposq
  rw [if_pos hgt]
  simp [JSNum.div, hposq.ne']

/-- C3, as stated, fails: without a stored grade field no entry passes the guard
`result.grade && result.creditUnit`, and
`calculateGPA([{totalScore:70,creditUnit:3},{totalScore:50,creditUnit:2}])` is
`"0.00"`, not `"4.20"`. -/
theorem calculateGPA_no_grade_counterexample :
    calculateGPA [bareEntry 70 3, bareEntry 50 2] = "0.00" ∧
    calculateGPA [bareEntry 70 3, bareEntry 50 2] ≠ "4.20" := by
  decide!

/-- C3 (amended): for every list of results whose entries carry a truthy stored
grade, a totalScore and a positive creditUnit, `calculateGPA` returns the
credit-weighted average of the grade points of the total scores, formatted to two
decimal places: the quotient of the two sums as JavaScript computes them, which
for whole credit units (with a total below `2^53 / 5`) is the exact average
rounded to the nearest Number; for `[{grade:"A",totalScore:70,creditUnit:3},
{grade:"C",totalScore:50,creditUnit:2}]` it returns `"4.20"`; for every list
whose entries have no stored grade field, as
`[{totalScore:70,creditUnit:3},{totalScore:50,creditUnit:2}]`, and for the empty
list it returns `"0.00"`. -/
theorem calculateGPA_weighted_average (rs : List Result) :
    (rs ≠ [] →
      (∀ r ∈ rs, r.grade.truthy = true ∧
        ∃ c, r.creditUnit = some c ∧ c.isDouble = true ∧ c.gt 0 = true) →
      calculateGPA rs =
        toFixed2 ((sumNumbers (rs.map weightedPoint)).div (sumNumbers (rs.map creditOf)))) ∧
    (rs ≠ [] →
      (∀ r ∈ rs, r.grade.truthy = true ∧ 0 < r.units ∧
        r.creditUnit = some (JSNum.fin (r.units : ℚ))) →
      5 * totalUnits rs < 2 ^ 53 →
      calculateGPA rs
        = toFixed2 (roundToDouble ((totalPoints rs : ℚ) / (totalUnits rs : ℚ)))) ∧
    ((∀ r ∈ rs, r.grade = JSVal.undefined) → calculateGPA rs = "0.00") ∧
    calculateGPA [gradedEntry "A" 70 3, gradedEntry "C" 50 2] = "4.20" ∧
    calculateGPA [bareEntry 70 3, bareEntry 50 2] = "0.00" ∧
    calculateGPA [] = "0.00" := by
  refine ⟨fun hne hall => ?_, calculateGPA_exact rs, fun hall => ?_,
    by decide!, by decide!, by decide!⟩
  · have hcounted : ∀ r ∈ rs, r.counted = true := by
      intro r hr
      obtain ⟨hg, c, hc, -, hpos⟩ := hall r hr
      have hp : c.Pos := (gt_zero_iff c).1 hpos
      have ht : c.truthy = true := by
        cases c with
        | nan => exact hp.elim
        | negInf => exact hp.elim
        | posInf => rfl
        | fin q => simpa [JSNum.truthy] using (ne_of_gt (show 0 < q from hp))
      simp [Result.counted, hg, hc, ht]
    have hcred : (sumNumbers (rs.map creditOf)).gt 0 = true := by
      rw [gt_zero_iff]
      refine (foldl_add_pos (rs.map creditOf) ?_ 0 ?_).2 (by simpa using hne)
      · intro c hc
        obtain ⟨r, hr, rfl⟩ := List.mem_map.1 hc
        obtain ⟨-, c, hcu, hd, hpos⟩ := hall r hr
        simp only [creditOf, hcu, toNumber]
        exact ⟨hd, (gt_zero_iff c).1 hpos⟩
      · show (0 : ℚ) ≤ ((0 : ℕ) : ℚ)
        simp
    rw [calculateGPA_eq_gpaOf, filter_counted_of_all hcounted, gpaOf]
    simp only [hcred, if_true]
  · have hskip : ∀ r ∈ rs, r.counted = false := by
      intro r hr
      simp [Result.counted, hall r hr, JSVal.truthy]
    rw [calculateGPA_eq_gpaOf, filter_counted_of_none hskip]
    decide!

/-- The amended C3 at `[{grade:"A",totalScore:70,creditUnit:3},
{grade:"C",totalScore:50,creditUnit:2}]`: the weighted average `21 / 5` prints as
`"4.20"`. -/
theorem calculateGPA_weighted_average_witness :
    toFixed2 ((sumNumbers ([gradedEntry "A" 70 3, gradedEntry "C" 50 2].map weightedPoint)).div
      (sumNumbers ([gradedEntry "A" 70 3, gradedEntry "C" 50 2].map creditOf))) = "4.20" ∧
    calculateGPA [gradedEntry "A" 70 3, gradedEntry "C" 50 2] =
      toFixed2 ((sumNumbers ([gradedEntry "A" 70 3, gradedEntry "C" 50 2].map weightedPoint)).div
        (sumNumbers ([gradedEntry "A" 70 3, gradedEntry "C" 50 2].map creditOf))) :=
  ⟨by decide!,
    (calculateGPA_weighted_average [gradedEntry "A" 70 3, gradedEntry "C" 50 2]).1
      (List.cons_ne_nil _ _)
      (fun r hr => by
        rcases List.mem_cons.1 hr with h | h
        · subst h
          exact ⟨by decide, JSNum.fin 3, by decide!, by decide!, by decide!⟩
        · rcases List.mem_cons.1 h with h | h
          · subst h
            exact ⟨by decide, JSNum.fin 2, by decide!, by decide!, by decide!⟩
          · cases h)⟩

/-! ### `formatNumber` -/

theorem digitChar_isDigit : ∀ m, m < 10 → (Nat.digitChar m).isDigit = true := by
  decide

theorem toDigitsCore_isDigit (fuel n : Nat) (acc : List Char)
    (hacc : ∀ c ∈ acc, c.isDigit = true) :
    ∀ c ∈ Nat.toDigitsCore 10 fuel n acc, c.isDigit = true := by
  induction fuel generalizing n acc with
  | zero => simpa [Nat.toDigitsCore] using hacc
  | succ fuel ih =>
    have hd : (Nat.digitChar (n % 10)).isDigit = true :=
      digitChar_isDigit _ (Nat.mod_lt _ (by norm_num))
    have hacc' : ∀ c ∈ Nat.digitChar (n % 10) :: acc, c.isDigit = true := by
      intro c hc
      rcases List.mem_cons.1 hc with h | h
      · rw [h]; exact hd
      · exact hacc c h
    unfold Nat.toDigitsCore
    simp only
    split_ifs
    · exact hacc'
    · exact ih _ _ hacc'

theorem decimalDigits_isDigit (n : Nat) : ∀ c ∈ decimalDigits n, c.isDigit = true :=
  toDigitsCore_isDigit _ _ [] (by simp)

/-- On a run of digits that reaches the end of the text, the lookahead
`(\d{3})+(?!\d)` succeeds exactly when the run has a positive multiple of three
digits. -/
theorem groupsThenNoDigit_digits :
    ∀ ds : List Char, (∀ c ∈ ds, c.isDigit = true) →
      groupsThenNoDigit ds = decide (ds.length % 3 = 0 ∧ ds ≠ [])
  | [], _ => by simp [groupsThenNoDigit]
  | [_], _ => by simp [groupsThenNoDigit]
  | [_, _], _ => by simp [groupsThenNoDigit]
  | a :: b :: c :: rest, h => by
    have ha : a.isDigit = true := h a (by simp)
    have hb : b.isDigit = true := h b (by simp)
    have hc : c.isDigit = true := h c (by simp)
    have hrest : ∀ x ∈ rest, x.isDigit = true := fun x hx => h x (by simp [hx])
    have ih := groupsThenNoDigit_digits rest hrest
    cases rest with
    | nil => simp [groupsThenNoDigit, ha, hb, hc, noDigitAhead]
    | cons r rs =>
      have hr : r.isDigit = true := hrest r (by simp)
      rw [groupsThenNoDigit, ih]
      simp only [ha, hb, hc, hr, noDigitAhead, Bool.and_self, Bool.not_true, Bool.or_false,
        Bool.true_and, List.length_cons, ne_eq, reduceCtorEq, not_false_eq_true, and_true,
        decide_eq_decide]
      omega

theorem isWordChar_digit {c : Char} (h : c.isDigit = true) : isWordChar (some c) = true := by
  simp [isWordChar, Char.isAlphanum, h]

/-- After a digit, the replacement on a run of digits is the grouping of the
claim. -/
theorem replaceCommas_digits (d : Char) (hd : d.isDigit = true) :
    ∀ ds : List Char, (∀ c ∈ ds, c.isDigit = true) →
      d :: replaceCommas (some d) ds = groupDigits (d :: ds) := by
  intro ds
  induction ds generalizing d with
  | nil =>
    intro _
    simp [replaceCommas, commaHere, groupsThenNoDigit, groupDigits]
  | cons e es ih =>
    intro h
    have he : e.isDigit = true := h e (by simp)
    have hes : ∀ c ∈ es, c.isDigit = true := fun c hc => h c (by simp [hc])
    have hla := groupsThenNoDigit_digits (e :: es) h
    rw [replaceCommas, ih e he hes]
    have hB : notWordBoundary (some d) (some e) = true := by
      simp [notWordBoundary, isWordChar_digit hd, isWordChar_digit he]
    simp only [commaHere, List.head?_cons, hB, Bool.true_and, hla]
    conv_rhs => rw [groupDigits]
    simp

theorem replaceCommas_front :
    ∀ ds : List Char, (∀ c ∈ ds, c.isDigit = true) →
      replaceCommas none ds = groupDigits ds
  | [], _ => by simp [replaceCommas, commaHere, groupsThenNoDigit, groupDigits]
  | d :: ds, h => by
    have hd : d.isDigit = true := h d (by simp)
    have hB : notWordBoundary none (some d) = false := by
      simp only [notWordBoundary, isWordChar_digit hd]
      rfl
    rw [replaceCommas]
    simp only [commaHere, List.head?_cons, hB, Bool.false_and]
    exact replaceCommas_digits d hd ds (fun c hc => h c (by simp [hc]))

theorem replaceCommas_minus :
    ∀ ds : List Char, (∀ c ∈ ds, c.isDigit = true) →
      replaceCommas none ('-' :: ds) = '-' :: groupDigits ds
  | [], _ => by
    simp [replaceCommas, commaHere, groupsThenNoDigit, groupDigits]
  | d :: ds, h => by
    have hd : d.isDigit = true := h d (by simp)
    have hB : notWordBoundary (some '-') (some d) = false := by
      have : isWordChar (some '-') = false := by decide
      simp [notWordBoundary, isWordChar_digit hd, this]
    have hminus : groupsThenNoDigit ('-' :: d :: ds) = false := by
      cases ds with
      | nil => simp [groupsThenNoDigit]
      | cons e es =>
        have : ('-' : Char).isDigit = false := by decide
        simp [groupsThenNoDigit, this]
    rw [replaceCommas, replaceCommas]
    simp only [commaHere, List.head?_cons, hB, hminus, Bool.false_and, Bool.and_false]
    simpa using replaceCommas_digits d hd ds (fun c hc => h c (by simp [hc]))

theorem toDigitsCore_ne_nil (fuel n : Nat) (acc : List Char) (hacc : acc ≠ []) :
    Nat.toDigitsCore 10 fuel n acc ≠ [] := by
  induction fuel generalizing n acc with
  | zero => simpa [Nat.toDigitsCore] using hacc
  | succ fuel ih =>
    unfold Nat.toDigitsCore
    simp only
    split_ifs
    · exact List.cons_ne_nil _ _
    · exact ih _ _ (List.cons_ne_nil _ _)

theorem decimalDigits_ne_nil (n : Nat) : decimalDigits n ≠ [] := by
  unfold decimalDigits Nat.toDigits Nat.toDigitsCore
  simp only
  split_ifs
  · exact List.cons_ne_nil _ _
  · exact toDigitsCore_ne_nil _ _ _ (List.cons_ne_nil _ _)

theorem length_join_three (rest : List (List Char)) (h : ∀ g ∈ rest, g.length = 3) :
    rest.flatten.length = 3 * rest.length := by
  induction rest with
  | nil => rfl
  | cons g gs ih =>
    have hg := h g (by simp)
    have := ih (fun x hx => h x (by simp [hx]))
    simp only [List.flatten_cons, List.length_append, List.length_cons, hg, this]
    omega

/-- The grouping of a non-empty digit string splits it into a first group of one
to three digits and further groups of exactly three, each after a comma. -/
theorem groupDigits_groups :
    ∀ ds : List Char, ds ≠ [] →
      ∃ (first : List Char) (rest : List (List Char)),
        ds = first ++ rest.flatten ∧ 1 ≤ first.length ∧ first.length ≤ 3 ∧
        (∀ g ∈ rest, g.length = 3) ∧
        groupDigits ds = first ++ (rest.map (fun g => ',' :: g)).flatten := by
  intro ds
  induction ds with
  | nil => intro h; exact (h rfl).elim
  | cons d ds ih =>
    intro _
    by_cases hnil : ds = []
    · subst hnil
      exact ⟨[d], [], by simp, by simp, by simp, by simp, by simp [groupDigits]⟩
    · obtain ⟨first, rest, hds, h1, h3, hrest, hg⟩ := ih hnil
      have hlen : ds.length = first.length + 3 * rest.length := by
        rw [hds, List.length_append, length_join_three rest hrest]
      by_cases hmod : ds.length % 3 = 0
      · have hf : first.length = 3 := by omega
        refine ⟨[d], first :: rest, by simp [hds], by simp, by simp, ?_, ?_⟩
        · intro g hgm
          rcases List.mem_cons.1 hgm with h | h
          · rw [h]; exact hf
          · exact hrest g h
        · rw [groupDigits, hg]
          simp [hmod, hnil]
      · refine ⟨d :: first, rest, by simp [hds], by simp, ?_, hrest, ?_⟩
        · simp only [List.length_cons]
          omega
        · rw [groupDigits, hg]
          simp [hmod]

theorem toDigitsCore_acc (fuel n : Nat) (acc : List Char) :
    Nat.toDigitsCore 10 fuel n acc = Nat.toDigitsCore 10 fuel n [] ++ acc := by
  induction fuel generalizing n acc with
  | zero => simp [Nat.toDigitsCore]
  | succ fuel ih =>
    unfold Nat.toDigitsCore
    simp only
    split_ifs
    · simp
    · rw [ih _ (_ :: acc), ih _ [_]]
      simp

theorem toDigitsCore_fuel (fuel fuel' n : Nat) (h : n < fuel) (h' : n < fuel') :
    Nat.toDigitsCore 10 fuel n [] = Nat.toDigitsCore 10 fuel' n [] := by
  induction fuel generalizing fuel' n with
  | zero => omega
  | succ fuel ih =>
    cases fuel' with
    | zero => omega
    | succ fuel' =>
      unfold Nat.toDigitsCore
      simp only
      split_ifs with h0
      · rfl
      · have hlt : n / 10 < n := Nat.div_lt_self (by omega) (by norm_num)
        rw [toDigitsCore_acc fuel, toDigitsCore_acc fuel',
          ih fuel' (n / 10) (by omega) (by omega)]

theorem decimalDigits_lt {n : Nat} (h : n < 10) : decimalDigits n = [Nat.digitChar n] := by
  unfold decimalDigits Nat.toDigits Nat.toDigitsCore
  simp only
  have h0 : n / 10 = 0 := Nat.div_eq_of_lt h
  rw [if_pos h0, Nat.mod_eq_of_lt h]

theorem decimalDigits_ge {n : Nat} (h : 10 ≤ n) :
    decimalDigits n = decimalDigits (n / 10) ++ [Nat.digitChar (n % 10)] := by
  have h0 : n / 10 ≠ 0 := by
    have : 1 ≤ n / 10 := (Nat.le_div_iff_mul_le (by norm_num)).2 (by omega)
    omega
  have hlt : n / 10 < n := Nat.div_lt_self (by omega) (by norm_num)
  show Nat.toDigitsCore 10 (n + 1) n [] = Nat.toDigitsCore 10 (n / 10 + 1) (n / 10) [] ++ _
  conv_lhs => unfold Nat.toDigitsCore
  simp only
  rw [if_neg h0, toDigitsCore_acc, toDigitsCore_fuel n (n / 10 + 1) (n / 10) hlt (by omega)]

theorem decimalDigits_mul_ten {m : Nat} (h : 0 < m) :
    decimalDigits (m * 10) = decimalDigits m ++ ['0'] := by
  rw [decimalDigits_ge (by omega), Nat.mul_div_cancel _ (by norm_num), Nat.mul_mod_left]
  rfl

theorem decimalDigits_mul_pow {m : Nat} (h : 0 < m) (j : Nat) :
    decimalDigits (m * 10 ^ j) = decimalDigits m ++ List.replicate j '0' := by
  induction j with
  | zero => simp
  | succ j ih =>
    rw [pow_succ, ← Nat.mul_assoc, decimalDigits_mul_ten (Nat.mul_pos h (by positivity)), ih,
      List.replicate_succ', List.append_assoc]

theorem decimalDigits_length_le (e n : Nat) (h : n < 10 ^ (e + 1)) :
    (decimalDigits n).length ≤ e + 1 := by
  induction e generalizing n with
  | zero =>
    rw [decimalDigits_lt (by simpa using h)]
    simp
  | succ e ih =>
    by_cases hn : n < 10
    · rw [decimalDigits_lt hn]
      simp
    · rw [decimalDigits_ge (by omega)]
      have : n / 10 < 10 ^ (e + 1) := by
        rw [Nat.div_lt_iff_lt_mul (by norm_num)]
        rw [pow_succ] at h
        exact h
      have := ih _ this
      simp only [List.length_append, List.length_singleton]
      omega

/-! ### `Number::toString` on safe integers -/

theorem pow2_log_gt {q : ℚ} (hq : 0 < q) :
    q < pow2 ((Nat.log2 q.num.natAbs : Int) - (Nat.log2 q.den : Int) + 1) := by
  have hnum : 0 < q.num := Rat.num_pos.2 hq
  have hd0 : q.den ≠ 0 := q.den_nz
  have h1 : (q.num.natAbs : ℚ) < ((2 ^ (Nat.log2 q.num.natAbs + 1) : ℕ) : ℚ) := by
    exact_mod_cast (Nat.lt_log2_self (n := q.num.natAbs))
  have h2 : ((2 ^ Nat.log2 q.den : ℕ) : ℚ) ≤ (q.den : ℚ) := by
    exact_mod_cast Nat.log2_self_le hd0
  have hqe : q = (q.num.natAbs : ℚ) / (q.den : ℚ) := by
    have : ((q.num.natAbs : ℤ) : ℚ) = (q.num : ℚ) := by
      rw [Int.natAbs_of_nonneg hnum.le]
    rw [← Int.cast_natCast, this]
    exact (Rat.num_div_den q).symm
  rw [pow2_eq]
  have hexp : (2 : ℚ) ^ ((Nat.log2 q.num.natAbs : Int) - (Nat.log2 q.den : Int) + 1)
      = ((2 ^ (Nat.log2 q.num.natAbs + 1) : ℕ) : ℚ) / ((2 ^ Nat.log2 q.den : ℕ) : ℚ) := by
    have : ((Nat.log2 q.num.natAbs : Int) - (Nat.log2 q.den : Int) + 1)
        = ((Nat.log2 q.num.natAbs + 1 : ℕ) : Int) - (Nat.log2 q.den : Int) := by
      push_cast; ring
    rw [this, zpow_sub₀ (by norm_num : (2 : ℚ) ≠ 0), zpow_natCast, zpow_natCast]
    push_cast
    rfl
  rw [hexp]
  conv_lhs => rw [hqe]
  have hp : (0 : ℚ) < ((2 ^ Nat.log2 q.den : ℕ) : ℚ) := by positivity
  have hden : (0 : ℚ) < q.den := by exact_mod_cast q.den_pos
  calc (q.num.natAbs : ℚ) / (q.den : ℚ)
      ≤ (q.num.natAbs : ℚ) / ((2 ^ Nat.log2 q.den : ℕ) : ℚ) :=
        div_le_div_of_nonneg_left (by positivity) hp h2
    _ < ((2 ^ (Nat.log2 q.num.natAbs + 1) : ℕ) : ℚ) / ((2 ^ Nat.log2 q.den : ℕ) : ℚ) :=
        div_lt_div_of_pos_right h1 hp

theorem pow2_binExp_le {q : ℚ} (hq : 0 < q) : pow2 (binExp q) ≤ q := by
  unfold binExp
  simp only [ilog2_eq]
  split_ifs with h
  · exact pow2_log_lt hq
  · exact not_lt.1 h

theorem lt_pow2_binExp {q : ℚ} (hq : 0 < q) : q < pow2 (binExp q + 1) := by
  unfold binExp
  simp only [ilog2_eq]
  split_ifs with h
  · simpa using h
  · exact pow2_log_gt hq

theorem pow2_lt_iff {z w : Int} (h : pow2 z < pow2 w) : z < w := by
  by_contra hc
  exact absurd (pow2_mono (not_lt.1 hc)) (not_le.2 h)

/-- Rounding does not take a value of at least `2^53` below `2^53`. -/
theorem roundPos_ge {q r : ℚ} (hq : pow2 53 ≤ q) (h : roundPos q = some r) : pow2 53 ≤ r := by
  have hq0 : 0 < q := lt_of_lt_of_le (pow2_pos 53) hq
  have he : 53 ≤ binExp q := by
    have := pow2_lt_iff (lt_of_le_of_lt hq (lt_pow2_binExp hq0))
    omega
  have hmax : max (binExp q) (-1022) = binExp q := max_eq_left (by omega)
  unfold roundPos at h
  simp only [hmax] at h
  split_ifs at h
  have hu := pow2_pos (binExp q - 52)
  have hsplit : pow2 (binExp q) = (2 : ℚ) ^ (52 : ℕ) * pow2 (binExp q - 52) := by
    rw [pow2_eq, pow2_eq, ← zpow_natCast, ← zpow_add₀ (by norm_num : (2 : ℚ) ≠ 0)]
    congr 1
    push_cast
    ring
  have hdiv : ((2 ^ 52 : ℕ) : ℤ) ≤ Rat.floor (q / pow2 (binExp q - 52)) := by
    rw [Rat.le_floor, le_div_iff₀ hu]
    have := pow2_binExp_le hq0
    rw [hsplit] at this
    push_cast
    exact this
  have hm := le_trans hdiv (roundHalfEven_ge_floor _)
  have hm' : ((2 : ℚ) ^ (52 : ℕ)) ≤ (roundHalfEven (q / pow2 (binExp q - 52)) : ℚ) := by
    have : (((2 ^ 52 : ℕ) : ℤ) : ℚ) ≤ (roundHalfEven (q / pow2 (binExp q - 52)) : ℚ) := by
      exact_mod_cast hm
    simpa using this
  rw [← Option.some.inj h]
  calc pow2 53 ≤ pow2 (binExp q) := pow2_mono he
    _ = (2 : ℚ) ^ (52 : ℕ) * pow2 (binExp q - 52) := hsplit
    _ ≤ _ := mul_le_mul_of_nonneg_right hm' hu.le

theorem roundToDouble_ne_of_ge {q : ℚ} (hq : pow2 53 ≤ q) {n : ℕ} (hn : n < 2 ^ 53) :
    roundToDouble q ≠ JSNum.fin (n : ℚ) := by
  have hq0 : 0 < q := lt_of_lt_of_le (pow2_pos 53) hq
  unfold roundToDouble
  rw [if_neg hq0.ne', if_pos hq0]
  cases h : roundPos q with
  | none => simp
  | some r =>
    have hr := roundPos_ge hq h
    intro hc
    have hrn : r = (n : ℚ) := JSNum.fin.inj hc
    have h53 : pow2 53 = ((2 ^ 53 : ℕ) : ℚ) := by rw [pow2_eq]; norm_num
    rw [hrn, h53] at hr
    have : 2 ^ 53 ≤ n := by exact_mod_cast hr
    omega

theorem pow10_natCast (j : ℕ) : pow10 (j : ℤ) = ((10 ^ j : ℕ) : ℚ) := by
  unfold pow10
  rw [if_pos (Int.natCast_nonneg j), Int.toNat_natCast]

theorem floor_natCast_div (N d : ℕ) :
    (Rat.floor ((N : ℚ) / ((d : ℕ) : ℚ))).toNat = N / d := by
  have h := Rat.floor_intCast_div_natCast (N : ℤ) d
  have h' : Rat.floor ((N : ℚ) / ((d : ℕ) : ℚ)) = (N : ℤ) / (d : ℤ) := by
    simpa using h
  rw [h']
  norm_cast

theorem lt_succ_div_mul (N d : ℕ) (hd : 0 < d) : N < (N / d + 1) * d := by
  have h1 := Nat.div_add_mod N d
  have h2 := Nat.mod_lt N hd
  have h3 : (N / d + 1) * d = d * (N / d) + d := by ring
  omega

theorem digitCandidate_natCast (N j : ℕ) (hN : N < 2 ^ 53) :
    digitCandidate (N : ℚ) ((10 ^ j : ℕ) : ℚ)
      = if 10 ^ j ∣ N then some (N / 10 ^ j) else none := by
  have hd : 0 < 10 ^ j := by positivity
  have hle : N / 10 ^ j * 10 ^ j ≤ N := Nat.div_mul_le_self N (10 ^ j)
  have hlo : roundToDouble (((N / 10 ^ j : ℕ) : ℚ) * ((10 ^ j : ℕ) : ℚ))
      = JSNum.fin ((N / 10 ^ j * 10 ^ j : ℕ) : ℚ) := by
    rw [← Nat.cast_mul]
    exact roundToDouble_natCast _ (by omega)
  have hhi : roundToDouble ((((N / 10 ^ j : ℕ) : ℚ) + 1) * ((10 ^ j : ℕ) : ℚ))
      ≠ JSNum.fin (N : ℚ) := by
    have hgt := lt_succ_div_mul N (10 ^ j) hd
    have hcast : (((N / 10 ^ j : ℕ) : ℚ) + 1) * ((10 ^ j : ℕ) : ℚ)
        = (((N / 10 ^ j + 1) * 10 ^ j : ℕ) : ℚ) := by push_cast; ring
    rw [hcast]
    by_cases hM : (N / 10 ^ j + 1) * 10 ^ j < 2 ^ 53
    · rw [roundToDouble_natCast _ hM]
      intro hc
      have : (((N / 10 ^ j + 1) * 10 ^ j : ℕ) : ℚ) = (N : ℚ) := JSNum.fin.inj hc
      have : (N / 10 ^ j + 1) * 10 ^ j = N := by exact_mod_cast this
      omega
    · apply roundToDouble_ne_of_ge _ hN
      have h53 : pow2 53 = ((2 ^ 53 : ℕ) : ℚ) := by rw [pow2_eq]; norm_num
      rw [h53]
      exact_mod_cast not_lt.1 hM
  unfold digitCandidate
  simp only [floor_natCast_div, Nat.cast_add, Nat.cast_one, hlo]
  have hokHi : decide (roundToDouble ((((N / 10 ^ j : ℕ) : ℚ) + 1) * ((10 ^ j : ℕ) : ℚ))
      = JSNum.fin (N : ℚ)) = false := by simpa using hhi
  rw [hokHi]
  by_cases hdvd : 10 ^ j ∣ N
  · have heq : N / 10 ^ j * 10 ^ j = N := Nat.div_mul_cancel hdvd
    simp [heq, hdvd]
  · have hne : N / 10 ^ j * 10 ^ j ≠ N := by
      intro hc
      exact hdvd ⟨N / 10 ^ j, by rw [Nat.mul_comm]; exact hc.symm⟩
    simp [hdvd]
    exact_mod_cast hne

theorem shortestDigits_natCast (N D : ℕ) (hN : N < 2 ^ 53) :
    ∀ fuel k : ℕ, k ≤ D → D - k < fuel →
      ∃ k', k ≤ k' ∧ k' ≤ D ∧ 10 ^ (D - k') ∣ N ∧
        shortestDigits (N : ℚ) (D : ℤ) fuel k = some (k', N / 10 ^ (D - k')) := by
  intro fuel
  induction fuel with
  | zero => intro k _ h; omega
  | succ fuel ih =>
    intro k hk hfuel
    have hscale : pow10 ((D : ℤ) - (k : ℤ)) = ((10 ^ (D - k) : ℕ) : ℚ) := by
      rw [← pow10_natCast]
      congr 1
      omega
    unfold shortestDigits
    rw [hscale, digitCandidate_natCast N (D - k) hN]
    by_cases hdvd : 10 ^ (D - k) ∣ N
    · exact ⟨k, le_refl k, hk, hdvd, by simp [hdvd]⟩
    · have hlt : k < D := by
        by_contra hc
        have : D - k = 0 := by omega
        rw [this] at hdvd
        exact hdvd (one_dvd N)
      obtain ⟨k', h1, h2, h3, h4⟩ := ih (k + 1) hlt (by omega)
      exact ⟨k', by omega, h2, h3, by simp [hdvd, h4]⟩

theorem floor_natCast (N : ℕ) : Rat.floor (N : ℚ) = (N : ℤ) :=
  Int.floor_natCast (α := ℚ) N

/-- The string of a positive safe integer is its decimal numeral. -/
theorem positiveToString_natCast (N : ℕ) (h0 : 0 < N) (hN : N < 2 ^ 53) :
    positiveToString (N : ℚ) = decimalDigits N := by
  have hD1 : 1 ≤ (decimalDigits N).length :=
    List.length_pos.2 (decimalDigits_ne_nil N)
  have hD16 : (decimalDigits N).length ≤ 16 :=
    decimalDigits_length_le 15 N (lt_trans hN (by norm_num))
  have hexp : decExp (N : ℚ) = ((decimalDigits N).length : ℤ) := by
    unfold decExp
    have h1 : (1 : ℚ) ≤ (N : ℚ) := by exact_mod_cast h0
    rw [if_pos h1, floor_natCast, Int.toNat_natCast]
  obtain ⟨k', hk1, hk2, hdvd, hsearch⟩ :=
    shortestDigits_natCast N (decimalDigits N).length hN 17 1 hD1 (by omega)
  have hmul : N / 10 ^ ((decimalDigits N).length - k') * 10 ^ ((decimalDigits N).length - k')
      = N := Nat.div_mul_cancel hdvd
  have hs0 : 0 < N / 10 ^ ((decimalDigits N).length - k') := by
    rcases Nat.eq_zero_or_pos (N / 10 ^ ((decimalDigits N).length - k')) with h | h
    · rw [h] at hmul
      omega
    · exact h
  have hsplit := decimalDigits_mul_pow hs0 ((decimalDigits N).length - k')
  rw [hmul] at hsplit
  have hlen : (decimalDigits (N / 10 ^ ((decimalDigits N).length - k'))).length = k' := by
    have := congrArg List.length hsplit
    simp only [List.length_append, List.length_replicate] at this
    omega
  have hcarry : N / 10 ^ ((decimalDigits N).length - k') ≠ 10 ^ k' := by
    intro hc
    have h10 := decimalDigits_mul_pow (show 0 < 1 by norm_num) k'
    rw [Nat.one_mul, ← hc, decimalDigits_lt (show 1 < 10 by norm_num)] at h10
    have := congrArg List.length h10
    simp only [List.length_append, List.length_replicate, List.length_singleton] at this
    omega
  have hdec : shortestDecimal (N : ℚ)
      = (((decimalDigits N).length : ℤ),
          decimalDigits (N / 10 ^ ((decimalDigits N).length - k'))) := by
    unfold shortestDecimal
    simp only [hexp, hsearch, Option.getD_some, if_neg hcarry]
  unfold positiveToString
  rw [hdec]
  simp only [layoutDigits]
  have hrange : (-6 : ℤ) < ((decimalDigits N).length : ℤ) ∧
      ((decimalDigits N).length : ℤ) ≤ 21 := by
    constructor <;> omega
  rw [if_pos hrange, hlen, if_pos (by exact_mod_cast hk2)]
  conv_rhs => rw [hsplit]
  congr 2
  omega

/-- The string `n.toString()` of a safe integer is its decimal numeral. -/
theorem numberToString_intCast (n : ℤ) (h : n.natAbs < 2 ^ 53) :
    numberToString (JSNum.fin (n : ℚ)) = intToString n := by
  simp only [numberToString, intToString]
  rcases lt_trichotomy n 0 with hn | hn | hn
  · have hq : (n : ℚ) < 0 := by exact_mod_cast hn
    have hcast : -(n : ℚ) = ((n.natAbs : ℕ) : ℚ) := by
      have : (n.natAbs : ℤ) = -n := by omega
      rw [← Int.cast_natCast, this]
      simp
    rw [if_neg hq.ne, if_pos hq, if_pos hn, hcast,
      positiveToString_natCast _ (by omega) h]
  · subst hn
    simp only [Int.cast_zero, if_true, lt_self_iff_false, if_false, Int.natAbs_zero]
    rfl
  · have hq : (0 : ℚ) < (n : ℚ) := by exact_mod_cast hn
    have hcast : (n : ℚ) = ((n.natAbs : ℕ) : ℚ) := by
      have : (n.natAbs : ℤ) = n := by omega
      rw [← Int.cast_natCast, this]
    rw [if_neg hq.ne', if_neg (not_lt.2 hq.le), if_neg (not_lt.2 hn.le), hcast,
      positiveToString_natCast _ (by omega) h]


theorem formatNumber_eq_groupDigits (n : Int) (h : n.natAbs < 2 ^ 53) :
    formatNumber (JSNum.fin (n : ℚ))
      = String.mk (signChars n ++ groupDigits (decimalDigits n.natAbs)) := by
  unfold formatNumber
  rw [numberToString_intCast n h]
  unfold intToString signChars
  split_ifs
  · rw [replaceCommas_minus _ (decimalDigits_isDigit _)]
    rfl
  · rw [replaceCommas_front _ (decimalDigits_isDigit _)]
    rfl

/-- C6, as stated, fails for integers that are not safe integers: the Number
`2^64` prints as `18446744073709552000`, not as its decimal numeral
`18446744073709551616`, so `formatNumber(2**64)` is
`"18,446,744,073,709,552,000"`; and `10^21` prints in exponent form, so
`formatNumber(1e21)` is `"1e+21"`, without a comma. -/
theorem formatNumber_unsafe_integer_counterexample :
    (JSNum.fin ((2 : ℚ) ^ 64)).isDouble = true ∧
    formatNumber (JSNum.fin ((2 : ℚ) ^ 64)) = "18,446,744,073,709,552,000" ∧
    String.mk (groupDigits (decimalDigits (2 ^ 64))) = "18,446,744,073,709,551,616" ∧
    formatNumber (JSNum.fin ((2 : ℚ) ^ 64)) ≠ String.mk (groupDigits (decimalDigits (2 ^ 64))) ∧
    (JSNum.fin ((10 : ℚ) ^ 21)).isDouble = true ∧
    formatNumber (JSNum.fin ((10 : ℚ) ^ 21)) = "1e+21" := by
  decide!

/-- C6 (amended): for every safe integer `n`, of magnitude below `2^53`,
`n.toString()` is the decimal string of `n` and `formatNumber(n)` is that string
with a comma at exactly those boundaries between two digits that have a positive
multiple of three digits to their right, none at the front or after a minus
sign: the digits fall into a first group of one to three digits and further
groups of exactly three digits, each after a comma;
`formatNumber(1234567) = "1,234,567"` and `formatNumber(100) = "100"`. -/
theorem formatNumber_thousands (n : Int) (h : n.natAbs < 2 ^ 53) :
    numberToString (JSNum.fin (n : ℚ)) = signChars n ++ decimalDigits n.natAbs ∧
    formatNumber (JSNum.fin (n : ℚ))
      = String.mk (signChars n ++ groupDigits (decimalDigits n.natAbs)) ∧
    (∃ (first : List Char) (rest : List (List Char)),
      decimalDigits n.natAbs = first ++ rest.flatten ∧ 1 ≤ first.length ∧ first.length ≤ 3 ∧
      (∀ g ∈ rest, g.length = 3) ∧
      formatNumber (JSNum.fin (n : ℚ)) =
        String.mk (signChars n ++ (first ++ (rest.map (fun g => ',' :: g)).flatten))) ∧
    formatNumber 1234567 = "1,234,567" ∧ formatNumber 100 = "100" ∧
    formatNumber (JSNum.fin (-1234567)) = "-1,234,567" := by
  refine ⟨?_, formatNumber_eq_groupDigits n h, ?_, by decide!, by decide!, by decide!⟩
  · rw [numberToString_intCast n h]
    unfold intToString signChars
    split_ifs <;> rfl
  · obtain ⟨first, rest, h1, h2, h3, h4, h5⟩ :=
      groupDigits_groups _ (decimalDigits_ne_nil n.natAbs)
    exact ⟨first, rest, h1, h2, h3, h4, by rw [formatNumber_eq_groupDigits n h, h5]⟩

/-- The amended C6 at the safe integer `-9007199254740991`. -/
theorem formatNumber_thousands_witness :
    formatNumber (JSNum.fin ((-9007199254740991 : ℤ) : ℚ)) = "-9,007,199,254,740,991" :=
  ((formatNumber_thousands (-9007199254740991) (by decide)).2.1).trans (by decide)

/-! ### `exportTableToCSV` -/

theorem joinFrom_eq (sep : String) (xs : List String) (r : String) :
    joinFrom sep r false xs = r ++ tailJoin sep xs := by
  induction xs generalizing r with
  | nil => simp [joinFrom, tailJoin]
  | cons x xs ih =>
    rw [joinFrom, ih, tailJoin]
    simp [String.append_assoc]

theorem joined_cons (sep : String) (x : String) (xs : List String) :
    joined sep (x :: xs) = x ++ tailJoin sep xs := by
  induction xs generalizing x with
  | nil => simp [joined, tailJoin]
  | cons y ys ih =>
    rw [joined, ih, tailJoin]
    simp [String.append_assoc]

/-- The loop of `join` builds the joined string. -/
theorem arrayJoin_eq_joined (sep : String) (xs : List String) :
    arrayJoin sep xs = joined sep xs := by
  cases xs with
  | nil => rfl
  | cons x xs =>
    rw [joined_cons, arrayJoin, joinFrom, joinFrom_eq]
    simp

theorem foldl_push {α β : Type} (f : α → β) (xs : List α) (acc : List β) :
    xs.foldl (fun acc x => acc ++ [f x]) acc = acc ++ xs.map f := by
  induction xs generalizing acc with
  | nil => simp
  | cons x xs ih => simp [ih]

theorem pushCells_eq (cols : List String) : pushCells cols = cols.map csvCell := by
  unfold pushCells
  rw [foldl_push (fun col => "\"" ++ replaceQuotes col ++ "\"")]
  rfl

theorem pushRows_eq (rows : Table) :
    pushRows rows = rows.map (fun row => joined "," (row.map csvCell)) := by
  unfold pushRows
  rw [foldl_push (fun row => arrayJoin "," (pushCells row))]
  simp [arrayJoin_eq_joined, pushCells_eq]

/-- C7: for every table found by id, seen as a list of rows each a list of cell
texts, the CSV text `exportTableToCSV` builds is the rows joined by a newline,
each row being its cells joined by commas, each cell being its text with every
double quote replaced by two double quotes and wrapped in one pair of double
quotes; the file name defaults to `export.csv`. -/
theorem exportTableToCSV_csv (getElementById : String → Option Table) (tableId : String)
    (filename : Option String) :
    (∀ table, getElementById tableId = some table →
      ∃ d, exportTableToCSV getElementById tableId filename = some d ∧
        d.csvContent = csvText table ∧
        d.download = (if filename = none ∨ filename = some "" then "export.csv"
          else filename.getD "")) ∧
    (getElementById tableId = none →
      exportTableToCSV getElementById tableId filename = none) ∧
    csvText [["Name", "Score"], ["Al \"Ace\"", "70"]]
      = "\"Name\",\"Score\"\n\"Al \"\"Ace\"\"\",\"70\"" := by
  refine ⟨fun table h => ?_, fun h => ?_, by decide⟩
  · refine ⟨_, by simp only [exportTableToCSV, h]; rfl, ?_, ?_⟩
    · simp only [arrayJoin_eq_joined, pushRows_eq, csvText]
    · cases filename with
      | none => simp
      | some name =>
        by_cases hn : name = "" <;> simp [hn]
  · simp [exportTableToCSV, h]

/-- C7 at the table `[["a"]]` registered under the id `t`. -/
theorem exportTableToCSV_csv_witness :
    ∃ d, exportTableToCSV (fun id => if id = "t" then some [["a"]] else none) "t" none = some d ∧
      d.csvContent = csvText [["a"]] ∧ d.download = "export.csv" :=
  (exportTableToCSV_csv (fun id => if id = "t" then some [["a"]] else none) "t" none).1
    [["a"]] (by decide)

/-! ### `initTableSearch` -/

/-- The method `includes` decides whether `search` is a contiguous part of
`text`. -/
theorem includes_iff (text search : List Char) :
    includes text search = true ↔ search <:+: text := by
  induction text with
  | nil =>
    simp [includes, List.isPrefixOf_iff_prefix]
  | cons c text ih =>
    rw [includes, Bool.or_eq_true, ih, List.isPrefixOf_iff_prefix, List.infix_cons_iff]

/-- C8: after a keyup on a search input bound to an existing table, with input
value `q`, every body row of the table keeps its text and has display `""` if
its lower-cased text content contains the lower-cased `q` and display `"none"`
otherwise, whatever its display was before; with rows "Alice 70" and "Bob 50"
and `q = "ali"` the first row is shown and the second hidden. -/
theorem searchKeyup_display (toLowerCase : String → String) (rows : List Row) (q : String) :
    (∃ rows', searchKeyup toLowerCase (some rows) q = some rows' ∧
      List.Forall₂ (fun row row' =>
        row'.textContent = row.textContent ∧
        ((toLowerCase q).data <:+: (toLowerCase row.textContent).data → row'.display = "") ∧
        (¬ (toLowerCase q).data <:+: (toLowerCase row.textContent).data →
          row'.display = "none")) rows rows') ∧
    searchKeyup asciiLower (some [⟨"Alice 70", "none"⟩, ⟨"Bob 50", ""⟩]) "ali"
      = some [⟨"Alice 70", ""⟩, ⟨"Bob 50", "none"⟩] := by
  refine ⟨⟨_, rfl, ?_⟩, by decide⟩
  unfold keyupListener
  induction rows with
  | nil => exact List.Forall₂.nil
  | cons row rows ih =>
    refine List.Forall₂.cons ⟨rfl, fun h => ?_, fun h => ?_⟩ ih
    · simp [(includes_iff _ _).2 h]
    · have : includes (toLowerCase row.textContent).data (toLowerCase q).data = false := by
        rw [← Bool.not_eq_true, includes_iff]; exact h
      simp [this]

/-! ### The CSRF wrapper -/

theorem toNat_ofNat_small (n : Nat) (hn : n < 0xd800) : (Char.ofNat n).toNat = n := by
  have hv : n.isValidChar := Or.inl hn
  simp only [Char.ofNat, hv, Char.ofNatAux, Char.toNat, dite_true]
  show (UInt32.ofNat' n _).toNat = n
  simp [UInt32.ofNat', UInt32.toNat]

/-- The characters with a given upper-case ASCII letter as upper-case form are
the letter and its lower-case form. -/
theorem toUpper_eq_iff (u : Char) (hu : 65 ≤ u.toNat ∧ u.toNat ≤ 90) (c : Char) :
    c.toUpper = u ↔ c = u ∨ c = Char.ofNat (u.toNat + 32) := by
  constructor
  · intro h
    unfold Char.toUpper at h
    simp only at h
    split_ifs at h with hr
    · right
      have h1 := congrArg Char.toNat h
      rw [toNat_ofNat_small _ (by omega)] at h1
      have h2 : c.toNat = u.toNat + 32 := by omega
      rw [← h2, Char.ofNat_toNat]
    · exact Or.inl h
  · rintro (h | h)
    · subst h
      unfold Char.toUpper
      simp only
      rw [if_neg (by omega)]
    · subst h
      unfold Char.toUpper
      simp only
      rw [toNat_ofNat_small _ (by omega), if_pos (by omega), Nat.add_sub_cancel,
        Char.ofNat_toNat]

/-- The test `method.toUpperCase() === 'GET'` holds exactly of the eight
spellings of `GET`. -/
theorem toUpperCase_eq_GET (m : String) : toUpperCase m = "GET" ↔ m ∈ getSpellings := by
  constructor
  · intro h
    have hd : m.data.map Char.toUpper = ['G', 'E', 'T'] := congrArg String.data h
    obtain ⟨data⟩ := m
    have hlen : data.length = 3 := by
      have := congrArg List.length hd
      simpa using this
    match data, hlen, hd with
    | [a, b, c], _, hd =>
      simp only [List.map, List.cons.injEq, and_true] at hd
      obtain ⟨ha, hb, hc⟩ := hd
      rcases (toUpper_eq_iff 'G' (by decide) a).1 ha with rfl | rfl <;>
      rcases (toUpper_eq_iff 'E' (by decide) b).1 hb with rfl | rfl <;>
      rcases (toUpper_eq_iff 'T' (by decide) c).1 hc with rfl | rfl <;> decide
  · intro h
    simp only [getSpellings, List.mem_cons, List.mem_singleton, List.not_mem_nil, or_false] at h
    rcases h with rfl | rfl | rfl | rfl | rfl | rfl | rfl | rfl <;> decide

theorem headers_get_set (h : Headers) (name : String) (value : Option String) :
    Headers.get (Headers.set h name value) name = some value := by
  induction h with
  | nil => simp [Headers.set, Headers.get]
  | cons kv rest ih =>
    obtain ⟨k, v⟩ := kv
    by_cases hk : k = name
    · simp [Headers.set, Headers.get, hk]
    · simp [Headers.set, Headers.get, hk, ih]

theorem headers_get_set_other (h : Headers) (name other : String) (value : Option String)
    (hne : other ≠ name) :
    Headers.get (Headers.set h name value) other = Headers.get h other := by
  induction h with
  | nil => simp [Headers.set, Headers.get, Ne.symm hne]
  | cons kv rest ih =>
    obtain ⟨k, v⟩ := kv
    by_cases hk : k = name
    · subst hk
      simp [Headers.set, Headers.get, Ne.symm hne]
    · by_cases hko : k = other
      · subst hko
        simp [Headers.set, Headers.get, hne]
      · simp [Headers.set, Headers.get, hk, hko, ih]

/-- C4, as stated, fails: the call `fetch("/save", {method: ""})` has a `method`
that is present and is not `GET` in any letter case, and the options delegated
to the original `fetch` carry no `X-CSRFToken` header. -/
theorem csrfFetch_empty_method_counterexample :
    installFetch (some (some "tok")) recordFetch "/save" (some ⟨some "", none, []⟩)
      = ("/save", some ⟨some "", some [], []⟩) ∧
    toUpperCase "" ≠ "GET" ∧ "" ∉ getSpellings ∧
    Headers.get [] "X-CSRFToken" ≠ some (some "tok") := by
  decide

/-- C4 (amended): with a CSRF meta tag present, for every call of the installed
wrapper whose `options.method` is a non-empty string and is not `GET` in any
letter case, the options delegated to the original `fetch` carry
`headers['X-CSRFToken']` equal to the meta tag's content attribute, also when the
caller supplied no headers object; the method, the other options and the other
headers are as supplied.  A `POST` call without headers gets the one header. -/
theorem csrfFetch_adds_token {ρ : Type} (token : Option String)
    (originalFetch : String → Option FetchOptions → ρ) (url : String) (o : FetchOptions)
    (m : String) (hm : o.method = some m) (hne : m ≠ "") (hget : m ∉ getSpellings) :
    (∃ o' : FetchOptions,
      installFetch (some token) originalFetch url (some o) = originalFetch url (some o') ∧
      (∃ h', o'.headers = some h' ∧ Headers.get h' "X-CSRFToken" = some token ∧
        ∀ name, name ≠ "X-CSRFToken" →
          Headers.get h' name = Headers.get (o.headers.getD []) name) ∧
      o'.method = o.method ∧ o'.other = o.other) ∧
    installFetch (some (some "tok")) recordFetch "/save" (some ⟨some "POST", none, []⟩)
      = ("/save", some ⟨some "POST", some [("X-CSRFToken", some "tok")], []⟩) := by
  refine ⟨?_, by decide⟩
  have hup : toUpperCase m ≠ "GET" := fun h => hget ((toUpperCase_eq_GET m).1 h)
  have hneeds : needsToken o.method = true := by
    simp [needsToken, hm, hne, hup]
  refine ⟨{ o with headers := some (Headers.set (o.headers.getD []) "X-CSRFToken" token) },
    ?_, ⟨_, rfl, headers_get_set _ _ _, fun name hn => headers_get_set_other _ _ _ _ hn⟩,
    rfl, rfl⟩
  simp [installFetch, csrfFetch, hneeds]

/-- The amended C4 at `fetch("/save", {method: "post"})` with the token `tok`. -/
theorem csrfFetch_adds_token_witness :
    ∃ o' : FetchOptions,
      installFetch (some (some "tok")) recordFetch "/save" (some ⟨some "post", none, []⟩)
        = recordFetch "/save" (some o') ∧
      (∃ h', o'.headers = some h' ∧ Headers.get h' "X-CSRFToken" = some (some "tok") ∧
        ∀ name, name ≠ "X-CSRFToken" → Headers.get h' name = Headers.get [] name) ∧
      o'.method = some "post" ∧ o'.other = [] :=
  (csrfFetch_adds_token (some "tok") recordFetch "/save" ⟨some "post", none, []⟩ "post"
    rfl (by decide) (by decide)).1

/-- C5, as stated, fails: for the call `fetch("/list")` the original `fetch`
receives an options object with an empty headers object where the caller
supplied no options, and for `fetch("/list", {method: "GET"})` it receives
options with an added empty `headers`. -/
theorem csrfFetch_passthrough_counterexample :
    installFetch (some (some "tok")) recordFetch "/list" none
      = ("/list", some ⟨none, some [], []⟩) ∧
    installFetch (some (some "tok")) recordFetch "/list" none ≠ recordFetch "/list" none ∧
    installFetch (some (some "tok")) recordFetch "/list" (some ⟨some "GET", none, []⟩)
      ≠ recordFetch "/list" (some ⟨some "GET", none, []⟩) := by
  decide

/-- C5 (amended): for every call of the installed wrapper whose method is absent
or equals `GET` in any letter case, the original `fetch` receives the same url
and options with the same method, the same other properties and the same headers,
none added or changed, where absent options arrive as an options object and an
absent headers object as an empty one; when the caller supplied options with a
headers object, the original `fetch` receives exactly what the caller supplied. -/
theorem csrfFetch_get_passes {ρ : Type} (token : Option String)
    (originalFetch : String → Option FetchOptions → ρ) (url : String)
    (options : Option FetchOptions)
    (hmethod : (options.getD ⟨none, none, []⟩).method = none ∨
      ∃ m ∈ getSpellings, (options.getD ⟨none, none, []⟩).method = some m) :
    installFetch (some token) originalFetch url options
      = originalFetch url (some
          { method := (options.getD ⟨none, none, []⟩).method
            headers := some ((options.getD ⟨none, none, []⟩).headers.getD [])
            other := (options.getD ⟨none, none, []⟩).other }) ∧
    (∀ o h, options = some o → o.headers = some h →
      installFetch (some token) originalFetch url options = originalFetch url options) := by
  have hneeds : needsToken (options.getD ⟨none, none, []⟩).method = false := by
    rcases hmethod with h | ⟨m, hm, h⟩
    · simp [needsToken, h]
    · simp [needsToken, h, (toUpperCase_eq_GET m).2 hm]
  have hmain : installFetch (some token) originalFetch url options
      = originalFetch url (some
          { method := (options.getD ⟨none, none, []⟩).method
            headers := some ((options.getD ⟨none, none, []⟩).headers.getD [])
            other := (options.getD ⟨none, none, []⟩).other }) := by
    simp [installFetch, csrfFetch, hneeds]
  refine ⟨hmain, fun o h ho hh => ?_⟩
  rw [hmain, ho]
  obtain ⟨om, oh, oo⟩ := o
  simp only at hh
  subst hh
  rfl

/-- The amended C5 at `fetch("/list", {method: "get", headers: {Accept: "text/csv"}})`. -/
theorem csrfFetch_get_passes_witness :
    installFetch (some (some "tok")) recordFetch "/list"
        (some ⟨some "get", some [("Accept", some "text/csv")], []⟩)
      = recordFetch "/list" (some ⟨some "get", some [("Accept", some "text/csv")], []⟩) :=
  (csrfFetch_get_passes (some "tok") recordFetch "/list"
    (some ⟨some "get", some [("Accept", some "text/csv")], []⟩)
    (Or.inr ⟨"get", by decide, rfl⟩)).2 _ _ rfl rfl

/-! ### `initSidebar` -/

theorem clicks_invariant (es : List Click) (p : Page) (h : p.sidebarShow = p.bodyOpen) :
    (clicks true true es p).sidebarShow = (clicks true true es p).bodyOpen := by
  induction es generalizing p with
  | nil => exact h
  | cons e es ih =>
    apply ih
    obtain ⟨s, b⟩ := p
    obtain ⟨i, t⟩ := e
    simp only at h
    subst h
    cases i <;> cases t <;> simp [initSidebar, documentListener, toggleListener]

/-- C10, as stated, fails when the toggle button lies inside the sidebar: a click
on it is a click inside the sidebar, and it opens the closed sidebar instead of
leaving the state unchanged. -/
theorem initSidebar_nested_toggle_counterexample :
    initSidebar true true ⟨true, true⟩ closed = ⟨true, true⟩ ∧
    initSidebar true true ⟨true, true⟩ closed ≠ closed := by
  decide

/-- C10 (amended): when the toggle button and the sidebar both exist and the
initial state is closed, then after every sequence of clicks the sidebar has
`show` exactly when the body has `sidebar-open`; a click on the toggle button
flips this open state, a click whose target is outside both the sidebar and the
toggle button leaves the state closed, and a click inside the sidebar and not on
the toggle button leaves the state unchanged. -/
theorem initSidebar_clicks (es : List Click) (e : Click) :
    (clicks true true es closed).sidebarShow = (clicks true true es closed).bodyOpen ∧
    (e.inToggle = true →
      initSidebar true true e (clicks true true es closed)
        = ⟨!(clicks true true es closed).sidebarShow, !(clicks true true es closed).bodyOpen⟩) ∧
    (e.inSidebar = false → e.inToggle = false →
      initSidebar true true e (clicks true true es closed) = closed) ∧
    (e.inSidebar = true → e.inToggle = false →
      initSidebar true true e (clicks true true es closed) = clicks true true es closed) := by
  refine ⟨clicks_invariant es closed rfl, fun h => ?_, fun h1 h2 => ?_, fun h1 h2 => ?_⟩
  · simp [initSidebar, documentListener, toggleListener, h]
  · simp [initSidebar, documentListener, h1, h2, closed]
  · simp [initSidebar, documentListener, h1, h2]

/-- The amended C10 after one click on the toggle button: the sidebar is open,
a click inside it leaves it open. -/
theorem initSidebar_clicks_witness :
    clicks true true [⟨false, true⟩] closed = ⟨true, true⟩ ∧
    initSidebar true true ⟨true, false⟩ (clicks true true [⟨false, true⟩] closed)
      = clicks true true [⟨false, true⟩] closed :=
  ⟨by decide, (initSidebar_clicks [⟨false, true⟩] ⟨true, false⟩).2.2.2 rfl rfl⟩

/-! ### `debounce` -/

theorem timerDelay_small {wait : Nat} (h : wait < 2 ^ 31) : timerDelay wait = wait := by
  unfold timerDelay
  have : wait % 2 ^ 32 = wait := Nat.mod_eq_of_lt (by omega)
  rw [this, if_pos h]

theorem armed_first {α : Type} (wait gap : Nat) (a : α) (hwait : wait < 2 ^ 31) :
    Armed wait a gap (executedFunction wait a (advance gap (Env.init α))) := by
  refine ⟨1, 2, ?_⟩
  simp [executedFunction, advance, Env.init, runTimers, clearTimeout, setTimeout,
    timerDelay_small hwait]

theorem armed_step {α : Type} (wait gap t : Nat) (a b : α) (env : Env α)
    (hwait : wait < 2 ^ 31) (h : Armed wait a t env) (hgap : gap < wait) :
    Armed wait b (t + gap) (executedFunction wait b (advance gap env)) := by
  obtain ⟨id, next, rfl⟩ := h
  refine ⟨next, next + 1, ?_⟩
  have hdue : ¬ t + wait ≤ t + gap := by omega
  simp [executedFunction, advance, runTimers, nextTimer, clearTimeout, setTimeout, hdue,
    timerDelay_small hwait]

theorem armed_session {α : Type} (wait : Nat) (rest : List (Nat × α)) (t : Nat) (a : α)
    (env : Env α) (hwait : wait < 2 ^ 31) (h : Armed wait a t env)
    (hrest : ∀ c ∈ rest, c.1 < wait) :
    Armed wait (lastArgs a rest) (t + lastCallTime rest) (session wait rest env) := by
  induction rest generalizing t a env with
  | nil => simpa [session, lastCallTime, lastArgs] using h
  | cons c cs ih =>
    have hc : c.1 < wait := hrest c (List.mem_cons_self _ _)
    have hstep := armed_step wait c.1 t a c.2 env hwait h hc
    have := ih (t + c.1) c.2 _ hstep (fun d hd => hrest d (List.mem_cons_of_mem _ hd))
    simp only [session, debounce, List.foldl_cons] at this ⊢
    simpa [lastArgs, lastCallTime, Nat.add_assoc] using this

theorem armed_fires {α : Type} (wait t : Nat) (a : α) (env : Env α) (h : Armed wait a t env) :
    (runTimers none env.timers.length env).invoked = [(t + wait, a)] := by
  obtain ⟨id, next, rfl⟩ := h
  simp [runTimers, nextTimer, later, clearTimeout]

theorem getLast_eq_lastArgs {α : Type} (c : Nat × α) (rest : List (Nat × α)) :
    ((c :: rest).getLast (List.cons_ne_nil _ _)).2 = lastArgs c.2 rest := by
  induction rest generalizing c with
  | nil => rfl
  | cons d ds ih =>
    rw [List.getLast_cons (List.cons_ne_nil _ _), ih]
    rfl

/-- C9, as stated, fails for a `wait` of `2^31` ms or more: the browser reads the
delay `2147483648` as a negative 32-bit integer and runs the timer at once, so
two calls 50 ms apart, well within the wait, give two invocations of `func`, the
first with the first call's arguments. -/
theorem debounce_long_wait_counterexample :
    timerDelay 2147483648 = 0 ∧
    invocations 2147483648 [(0, "a"), (50, "b")] = [(0, "a"), (50, "b")] ∧
    invocations 2147483648 [(0, "a"), (50, "b")] ≠ [(50 + 2147483648, "b")] := by
  decide

/-- C9 (amended): for every `wait` below `2^31` ms and every non-empty sequence
of calls of the wrapper returned by `debounce(func, wait)` in which each call
comes less than `wait` ms after the previous one, `func` is invoked exactly once,
`wait` ms after the last call, with the arguments of the last call; three calls
within the wait window give one invocation with the third call's arguments. -/
theorem debounce_once {α : Type} (wait : Nat) (c : Nat × α) (rest : List (Nat × α))
    (hwait : wait < 2 ^ 31) (h : ∀ d ∈ rest, d.1 < wait) :
    invocations wait (c :: rest)
      = [(lastCallTime (c :: rest) + wait, ((c :: rest).getLast (List.cons_ne_nil _ _)).2)] ∧
    invocations 100 [(0, "a"), (30, "b"), (99, "c")] = [(229, "c")] := by
  refine ⟨?_, by decide⟩
  have h1 := armed_first wait c.1 c.2 hwait
  have h2 := armed_session wait rest c.1 c.2 _ hwait h1 h
  have h3 := armed_fires wait _ _ _ h2
  rw [getLast_eq_lastArgs]
  simpa [invocations, session, debounce, lastCallTime] using h3

/-- The amended C9 at three calls 30 ms and 99 ms apart with a wait of 100 ms. -/
theorem debounce_once_witness :
    invocations 100 [(0, "a"), (30, "b"), (99, "c")] = [(0 + 30 + 99 + 100, "c")] :=
  (debounce_once 100 (0, "a") [(30, "b"), (99, "c")] (by decide) (by decide)).1

end ResultProcessing
